import Mathlib

/-!
# Offline PhraseVault: keyed permutation and keystream obfuscation

A shallow embedding of `internal/crypto/obfuscate.go` and of the parts of
`internal/wallet/service.go` that call it, with the properties of the scheme
proved over the embedding.

Conventions of the embedding.

* A Go `byte` is a `Fin 256`; a Go `string` or `[]byte` is a `List Byte`
  (the conversions `[]byte(s)` and `string(b)` are the identity on bytes).
* A Go `uint64` is a `Nat` below `2 ^ 64`; operations that can carry out of
  64 bits are followed by `% 2 ^ 64`.
* A Go `int` that may come from outside (a slot read from storage, a
  1-based index typed by the user) is an `Int`; `r.Slot + 1` wraps as
  two's-complement 64-bit addition does.  Loop counters and lengths, which
  the code only ever builds from `0` upwards, are `Nat`.
* A run-time panic (index out of range, slice bounds out of range, integer
  division by zero) is the result `none`.
* `crypto/sha256` belongs to the standard library and is a parameter
  `sha256 : List Byte → Bytes32` of every definition that hashes.
-/

/-- A Go `byte`. -/
abbrev Byte := Fin 256

/-- A Go `[32]byte`, the result type of `sha256.Sum256`. -/
abbrev Bytes32 := {l : List Byte // l.length = 32}

/-- The type of the digest function `sha256.Sum256`. -/
abbrev Sha256 := List Byte → Bytes32

namespace crypto

/-- SlotCipher is a stored word ciphertext mapped to its permuted slot
(`type SlotCipher struct { Slot int; Data []byte }`). -/
structure SlotCipher where
  Slot : Int
  Data : List Byte
deriving DecidableEq, Repr

/-- The Go conversion `uint64(i)` of an `int64`. -/
def uint64OfInt (i : Int) : Nat := (i % 2 ^ 64).toNat

/-- Two's-complement wrap of a mathematical integer into the range of a Go
`int` (64 bits). -/
def wrapInt64 (x : Int) : Int := (x + 2 ^ 63) % 2 ^ 64 - 2 ^ 63

/-- The 8 bytes `binary.LittleEndian.PutUint64` writes for `v`. -/
def putUint64 (v : Nat) : List Byte :=
  (List.range 8).map fun k => ⟨(v >>> (8 * k)) % 256, Nat.mod_lt _ (by decide)⟩

/-- Translation of `le64` of obfuscate.go: `b` is copied into a zeroed 8-byte
buffer (at most 8 bytes are copied, missing ones stay zero) and the buffer is
read as a little-endian `uint64`. -/
def le64 (b : List Byte) : Nat :=
  (b.take 8).foldr (fun x acc => x.val + 256 * acc) 0

/-- DeriveKey derives a 32-byte key from PIN and walletID. -/
def DeriveKey (sha256 : Sha256) (pin : List Byte) (walletID : Int) : Bytes32 :=
  sha256 (pin ++ putUint64 (uint64OfInt walletID))

/-- The state of the xorshift128+ generator. -/
structure xorshift128plus where
  s0 : Nat
  s1 : Nat
deriving DecidableEq, Repr

/-- Translation of `newXorShiftFromSeed`: a seed of at least 16 bytes gives
the two state words directly, a shorter one is hashed first. -/
def newXorShiftFromSeed (sha256 : Sha256) (seed : List Byte) : xorshift128plus :=
  if 16 ≤ seed.length then
    { s0 := le64 (seed.take 8), s1 := le64 ((seed.drop 8).take 8) }
  else
    let h := (sha256 seed).val
    { s0 := le64 (h.take 8), s1 := le64 ((h.drop 8).take 8) }

/-- Translation of `(*xorshift128plus).next`: the returned value and the
state left behind. -/
def xorshift128plus.next (x : xorshift128plus) : Nat × xorshift128plus :=
  let s1 := x.s0
  let s0 := x.s1
  let s1 := s1 ^^^ ((s1 <<< 23) % 2 ^ 64)
  let s1 := s1 ^^^ (s1 >>> 17)
  let s1 := s1 ^^^ s0
  let s1 := s1 ^^^ (s0 >>> 26)
  ((s0 + s1) % 2 ^ 64, { s0 := s0, s1 := s1 })

/-- The remainder `a % b` of two `uint64`; division by zero panics. -/
def umod (a b : Nat) : Option Nat := if b = 0 then none else some (a % b)

/-- The assignment `xs[i] = v`; an index past the end panics. -/
def assign {α : Type} (xs : List α) (i : Nat) (v : α) : Option (List α) :=
  if i < xs.length then some (xs.set i v) else none

/-- The read `xs[i]` with an `int` index; it panics on a negative index and on
one past the end. -/
def index {α : Type} (xs : List α) (i : Int) : Option α :=
  if 0 ≤ i then xs[i.toNat]? else none

/-- The first loop of `BuildPermutationN`, `for i := 0; i < n; i++ { perm[i] = i }`,
run over the counters `is`. -/
def fillLoop : List Nat → List Nat → Option (List Nat)
  | [], perm => some perm
  | i :: is, perm =>
    match assign perm i i with
    | none => none
    | some perm1 => fillLoop is perm1

/-- The second loop of `BuildPermutationN`, `for i := n-1; i > 0; i--`, entered
with counter value `i`. -/
def shuffleLoop : Nat → xorshift128plus → List Nat → Option (List Nat)
  | 0, _, perm => some perm
  | i + 1, prng, perm =>
    let r := prng.next
    match umod r.1 (i + 1 + 1) with
    | none => none
    | some j =>
      match perm[j]?, perm[i + 1]? with
      | some pj, some pi =>
        match assign perm (i + 1) pj with
        | none => none
        | some perm1 =>
          match assign perm1 j pi with
          | none => none
          | some perm2 => shuffleLoop i r.2 perm2
      | _, _ => none

/-- Translation of `BuildPermutationN` (`n` is the non-negative `int` every
caller passes). -/
def BuildPermutationN (sha256 : Sha256) (key : Bytes32) (n : Nat) : Option (List Nat) :=
  match fillLoop (List.range n) (List.replicate n 0) with
  | none => none
  | some perm => shuffleLoop (n - 1) (newXorShiftFromSeed sha256 (key.val.take 16)) perm

/-- The loop of `invertPermutation`, `for i, p := range perm { inv[p] = i }`,
from counter `i` on. -/
def invertLoop : Nat → List Nat → List Nat → Option (List Nat)
  | _, [], inv => some inv
  | i, p :: ps, inv =>
    match assign inv p i with
    | none => none
    | some inv1 => invertLoop (i + 1) ps inv1

/-- Translation of `invertPermutation`. -/
def invertPermutation (perm : List Nat) : Option (List Nat) :=
  invertLoop 0 perm (List.replicate perm.length 0)

/-- Translation of `nonceForIndex`: the first 16 bytes of the digest of the
key followed by the single byte `byte(i)`. -/
def nonceForIndex (sha256 : Sha256) (key : Bytes32) (i : Nat) : List Byte :=
  (sha256 (key.val ++ [⟨i % 256, Nat.mod_lt _ (by decide)⟩])).val.take 16

/-- The statement `copy(dst[lo:hi], src[:k])`: both slice expressions are
bounds-checked, then `min (hi - lo) k` bytes are copied. -/
def copyInto (dst : List Byte) (lo hi : Nat) (src : List Byte) (k : Nat) : Option (List Byte) :=
  if lo ≤ hi ∧ hi ≤ dst.length ∧ k ≤ src.length then
    some (dst.take lo ++ src.take (min (hi - lo) k) ++ dst.drop (lo + min (hi - lo) k))
  else none

/-- The loop `for off < n` of `maskBytes`.  The first argument after `n`
bounds the number of iterations; running out of it is the result `none`, as a
panic is. -/
def maskLoop (n : Nat) : Nat → xorshift128plus → List Byte → Nat → Option (List Byte)
  | 0, _, out, off => if off < n then none else some out
  | fuel + 1, prng, out, off =>
    if off < n then
      let r := prng.next
      let buf := putUint64 r.1
      let toCopy := if n - off < 8 then n - off else 8
      match copyInto out off (off + toCopy) buf toCopy with
      | none => none
      | some out1 => maskLoop n fuel r.2 out1 (off + toCopy)
    else some out

/-- Translation of `maskBytes`.  Every iteration of the loop advances `off`
by at least one, so `n` iterations are enough. -/
def maskBytes (sha256 : Sha256) (seed : List Byte) (n : Nat) : Option (List Byte) :=
  maskLoop n n (newXorShiftFromSeed sha256 seed) (List.replicate n 0) 0

/-- The loop `for k := range b { b[k] ^= mask[k] }`; a mask shorter than `b`
panics. -/
def xorLoop : List Byte → List Byte → Option (List Byte)
  | [], _ => some []
  | _ :: _, [] => none
  | b :: bs, m :: ms =>
    match xorLoop bs ms with
    | none => none
    | some rest => some ((b ^^^ m) :: rest)

/-- The loop `for i, w := range words` of `EncryptWords`, from index `i` on;
the result lists `out[i], out[i+1], ...`. -/
def encryptLoop (sha256 : Sha256) (key : Bytes32) (perm : List Nat) :
    Nat → List (List Byte) → Option (List SlotCipher)
  | _, [] => some []
  | i, w :: ws =>
    match maskBytes sha256 (nonceForIndex sha256 key i) w.length with
    | none => none
    | some mask =>
      match xorLoop w mask, perm[i]? with
      | some b, some slot =>
        match encryptLoop sha256 key perm (i + 1) ws with
        | none => none
        | some rest => some ({ Slot := (slot : Int), Data := b } :: rest)
      | _, _ => none

/-- EncryptWords returns slot->ciphertext pairs using permutation and XOR mask. -/
def EncryptWords (sha256 : Sha256) (words : List (List Byte)) (pin : List Byte)
    (walletID : Int) : Option (List SlotCipher) :=
  let key := DeriveKey sha256 pin walletID
  match BuildPermutationN sha256 key words.length with
  | none => none
  | some perm => encryptLoop sha256 key perm 0 words

/-- The loop `for _, r := range rows { if r.Slot+1 > n { n = r.Slot+1 } }` of
`DecryptWords`, started with `n`. -/
def inferLoop : List SlotCipher → Int → Int
  | [], n => n
  | r :: rs, n =>
    if wrapInt64 (r.Slot + 1) > n then inferLoop rs (wrapInt64 (r.Slot + 1)) else inferLoop rs n

/-- The body of the second loop of `DecryptWords` for one row. -/
def decryptRow (sha256 : Sha256) (key : Bytes32) (inv : List Nat)
    (ordered : List (List Byte)) (r : SlotCipher) : Option (List (List Byte)) :=
  match index inv r.Slot with
  | none => none
  | some i =>
    match maskBytes sha256 (nonceForIndex sha256 key i) r.Data.length with
    | none => none
    | some mask =>
      match xorLoop r.Data mask with
      | none => none
      | some b => assign ordered i b

/-- The second loop of `DecryptWords`, `for _, r := range rows`. -/
def decryptLoop (sha256 : Sha256) (key : Bytes32) (inv : List Nat) :
    List SlotCipher → List (List Byte) → Option (List (List Byte))
  | [], ordered => some ordered
  | r :: rs, ordered =>
    match decryptRow sha256 key inv ordered r with
    | none => none
    | some ordered1 => decryptLoop sha256 key inv rs ordered1

/-- The length `DecryptWords` infers from the rows: the maximum of
`r.Slot+1`, or 24 when that is 0. -/
def inferN (rows : List SlotCipher) : Int :=
  if inferLoop rows 0 = 0 then 24 else inferLoop rows 0

/-- DecryptWords reconstructs ordered words from stored slot-cipher rows. -/
def DecryptWords (sha256 : Sha256) (rows : List SlotCipher) (pin : List Byte)
    (walletID : Int) : Option (List (List Byte)) :=
  let key := DeriveKey sha256 pin walletID
  let n := inferN rows
  match BuildPermutationN sha256 key n.toNat with
  | none => none
  | some perm =>
    match invertPermutation perm with
    | none => none
    | some inv => decryptLoop sha256 key inv rows (List.replicate n.toNat [])

/-- The generation step in the words of the specification: `t = s0`,
`s0' = s1`, `t ^= t << 23`, `t ^= t >> 17`, `t ^= s1`, `t ^= s1 >> 26`,
`s1' = t`, `output = s0' + s1'`, every assignment storing a 64-bit word (high
bits discarded).  The result is `(s0', s1', output)`. -/
def specStep (s0 s1 : Nat) : Nat × Nat × Nat :=
  let t := s0
  let s0' := s1
  let t := (t ^^^ t <<< 23) % 2 ^ 64
  let t := (t ^^^ t >>> 17) % 2 ^ 64
  let t := (t ^^^ s1) % 2 ^ 64
  let t := (t ^^^ s1 >>> 26) % 2 ^ 64
  let s1' := t
  (s0', s1', (s0' + s1') % 2 ^ 64)

/-- The keystream of a generator in the words of the specification: the
concatenation of the 8-byte little-endian encodings of its first `k`
outputs. -/
def streamBytes : Nat → xorshift128plus → List Byte
  | 0, _ => []
  | k + 1, x => putUint64 x.next.1 ++ streamBytes k x.next.2

end crypto

/-! ## Embedding of `internal/wallet/service.go` over a model of the two tables -/

namespace wallet

/-- A row of the table `wallets` (db.go: `id INTEGER PRIMARY KEY`, `name TEXT
UNIQUE NOT NULL`, `pin_hash BLOB NOT NULL`, `created_at INTEGER NOT NULL`,
`phrase_len INTEGER NOT NULL DEFAULT 24`). -/
structure WalletRow where
  id : Int
  name : List Byte
  pin_hash : List Byte
  created_at : Int
  phrase_len : Int
deriving DecidableEq, Repr

/-- A row of the table `words` (db.go: `wallet_id`, `slot`, `ciphertext`, with
`UNIQUE(wallet_id, slot)`); its own `id` column is never read. -/
structure WordRow where
  wallet_id : Int
  slot : Int
  ciphertext : List Byte
deriving DecidableEq, Repr

/-- The contents of the database: the two tables.  Storage failures other than
constraint violations are not modelled. -/
structure DB where
  wallets : List WalletRow
  words : List WordRow
deriving DecidableEq, Repr

/-- Translation of `le64` of service.go: the 8 little-endian bytes of
`uint64(i)`. -/
def le64 (i : Int) : List Byte := crypto.putUint64 (crypto.uint64OfInt i)

/-- Translation of `pinHash`. -/
def pinHash (sha256 : Sha256) (pin : List Byte) (walletID : Int) : List Byte :=
  (sha256 (pin ++ le64 walletID)).val

/-- The row id SQLite gives a new row of a table with an `INTEGER PRIMARY
KEY`: one more than the largest id in use, 1 in an empty table. -/
def lastInsertId (rows : List WalletRow) : Int :=
  (rows.map WalletRow.id).foldl max 0 + 1

/-- The statement `INSERT INTO wallets(name, pin_hash, created_at, phrase_len)
VALUES(?,?,?,?)`: fails when the name is taken, otherwise returns the new id and
the table with the row added. -/
def insertWallet (db : DB) (name pin_hash : List Byte) (created_at phrase_len : Int) :
    Option (Int × DB) :=
  if db.wallets.any (fun w => w.name = name) then none
  else
    let id := lastInsertId db.wallets
    some (id, { db with wallets := db.wallets ++
      [{ id := id, name := name, pin_hash := pin_hash, created_at := created_at,
         phrase_len := phrase_len }] })

/-- The statement `UPDATE wallets SET pin_hash=? WHERE id=?`. -/
def updatePinHash (db : DB) (pin_hash : List Byte) (id : Int) : DB :=
  { db with wallets := db.wallets.map fun w => if w.id = id then { w with pin_hash := pin_hash } else w }

/-- The statement `INSERT INTO words(wallet_id, slot, ciphertext) VALUES(?,?,?)`:
fails when the wallet already has a row in that slot. -/
def insertWord (db : DB) (wallet_id slot : Int) (ciphertext : List Byte) : Option DB :=
  if db.words.any (fun r => r.wallet_id = wallet_id ∧ r.slot = slot) then none
  else some { db with words := db.words ++
    [{ wallet_id := wallet_id, slot := slot, ciphertext := ciphertext }] }

/-- The loop `for _, p := range pairs` of `Create`: one insert per pair, the
first failure ends it. -/
def insertPairs (id : Int) : List crypto.SlotCipher → DB → Option DB
  | [], db => some db
  | p :: ps, db =>
    match insertWord db id p.Slot p.Data with
    | none => none
    | some db1 => insertPairs id ps db1

/-- Translation of `Create`.  `TrimSpace` is `strings.TrimSpace` of the standard
library and `now` the value of `time.Now().Unix()`.  The result is what is
returned (the new id, or an error) and the database left behind: the
transaction is rolled back on every error return.  A panic is `none`. -/
def Create (sha256 : Sha256) (TrimSpace : List Byte → List Byte) (db : DB) (now : Int)
    (name pin : List Byte) (words : List (List Byte)) : Option (Except String Int × DB) :=
  let n := words.length
  if n ≠ 12 ∧ n ≠ 18 ∧ n ≠ 24 then
    some (Except.error "phrase length must be 12, 18, or 24", db)
  else if words.any (fun w => TrimSpace w = []) then
    some (Except.error "words must be non-empty", db)
  else
    match insertWallet db name [0] now n with
    | none => some (Except.error "create wallet: UNIQUE constraint failed: wallets.name", db)
    | some (id, tx1) =>
      let tx2 := updatePinHash tx1 (pinHash sha256 pin id) id
      match crypto.EncryptWords sha256 words pin id with
      | none => none
      | some pairs =>
        match insertPairs id pairs tx2 with
        | none =>
          some (Except.error "UNIQUE constraint failed: words.wallet_id, words.slot", db)
        | some tx3 => some (Except.ok id, tx3)

/-- Translation of `VerifyPIN`. -/
def VerifyPIN (sha256 : Sha256) (db : DB) (walletID : Int) (pin : List Byte) :
    Except String Bool :=
  match db.wallets.find? (fun w => w.id = walletID) with
  | none => Except.error "wallet not found"
  | some w => Except.ok (decide (w.pin_hash = pinHash sha256 pin walletID))

/-- The query `SELECT slot, ciphertext FROM words WHERE wallet_id=?`, in table
order. -/
def selectWords (db : DB) (walletID : Int) : List crypto.SlotCipher :=
  (db.words.filter fun r => r.wallet_id = walletID).map fun r =>
    { Slot := r.slot, Data := r.ciphertext }

/-- Translation of `GetOrderedWords`. -/
def GetOrderedWords (sha256 : Sha256) (db : DB) (walletID : Int) (pin : List Byte) :
    Option (Except String (List (List Byte))) :=
  match VerifyPIN sha256 db walletID pin with
  | Except.error e => some (Except.error e)
  | Except.ok false => some (Except.error "invalid PIN")
  | Except.ok true =>
    match crypto.DecryptWords sha256 (selectWords db walletID) pin walletID with
    | none => none
    | some ordered => some (Except.ok ordered)

/-- The query `SELECT phrase_len FROM wallets WHERE id=?`. -/
def selectPhraseLen (db : DB) (walletID : Int) : Option Int :=
  (db.wallets.find? fun w => w.id = walletID).map WalletRow.phrase_len

/-- The statement `DELETE FROM words WHERE wallet_id=? AND slot=?`. -/
def deleteWord (db : DB) (walletID slot : Int) : DB :=
  { db with words := db.words.filter fun r => ¬ (r.wallet_id = walletID ∧ r.slot = slot) }

/-- Translation of `DeleteWordAt`: the error returned (`none` for `nil`) and
the database left behind; the outer `none` is a panic. -/
def DeleteWordAt (sha256 : Sha256) (db : DB) (walletID : Int) (pin : List Byte)
    (index1based : Int) : Option (Option String × DB) :=
  match VerifyPIN sha256 db walletID pin with
  | Except.error e => some (some e, db)
  | Except.ok false => some (some "invalid PIN", db)
  | Except.ok true =>
    match selectPhraseLen db walletID with
    | none => some (some "sql: no rows in result set", db)
    | some n =>
      if index1based < 1 ∨ index1based > n then some (some "index out of range", db)
      else
        let key := crypto.DeriveKey sha256 pin walletID
        match crypto.BuildPermutationN sha256 key n.toNat with
        | none => none
        | some perm =>
          match crypto.index perm (index1based - 1) with
          | none => none
          | some slot => some (none, deleteWord db walletID (slot : Int))

end wallet

/-! ## SHA-256 and the data of the worked examples -/

namespace sha2

/-- Rotation of a 32-bit word to the right. -/
def rotr (x n : Nat) : Nat := (x >>> n ||| x <<< (32 - n)) % 2 ^ 32

/-- The round constants of SHA-256 (FIPS 180-4, section 4.2.2). -/
def roundConstants : List Nat :=
  [1116352408, 1899447441, 3049323471, 3921009573, 961987163, 1508970993, 2453635748,
   2870763221, 3624381080, 310598401, 607225278, 1426881987, 1925078388, 2162078206,
   2614888103, 3248222580, 3835390401, 4022224774, 264347078, 604807628, 770255983,
   1249150122, 1555081692, 1996064986, 2554220882, 2821834349, 2952996808, 3210313671,
   3336571891, 3584528711, 113926993, 338241895, 666307205, 773529912, 1294757372,
   1396182291, 1695183700, 1986661051, 2177026350, 2456956037, 2730485921, 2820302411,
   3259730800, 3345764771, 3516065817, 3600352804, 4094571909, 275423344, 430227734,
   506948616, 659060556, 883997877, 958139571, 1322822218, 1537002063, 1747873779,
   1955562222, 2024104815, 2227730452, 2361852424, 2428436474, 2756734187, 3204031479,
   3329325298]

/-- The initial hash value of SHA-256 (FIPS 180-4, section 5.3.3). -/
def initialState : List Nat :=
  [1779033703, 3144134277, 1013904242, 2773480762, 1359893119, 2600822924, 528734635,
   1541459225]

/-- The padded message: a `1` bit, zeros up to 56 modulo 64 bytes, and the bit
length as 8 big-endian bytes. -/
def pad (m : List Nat) : List Nat :=
  let zeros := (119 - m.length % 64) % 64
  m ++ 128 :: List.replicate zeros 0
    ++ (List.range 8).map fun k => (8 * m.length) >>> (8 * (7 - k)) % 256

/-- The big-endian 32-bit words of a byte string. -/
def toWords : List Nat → List Nat
  | a :: b :: c :: d :: rest => (a * 16777216 + b * 65536 + c * 256 + d) :: toWords rest
  | _ => []

/-- The message schedule extended by `k` words; `w` holds the schedule so far,
latest word first. -/
def extend : Nat → List Nat → List Nat
  | 0, w => w
  | k + 1, w =>
    match w with
    | w1 :: w2 :: _ :: _ :: _ :: _ :: w7 :: _ :: _ :: _ :: _ :: _ :: _ :: _ :: w15 :: w16 :: _ =>
      let s0 := rotr w15 7 ^^^ rotr w15 18 ^^^ w15 >>> 3
      let s1 := rotr w2 17 ^^^ rotr w2 19 ^^^ w2 >>> 10
      let _ := w1
      extend k (((w16 + s0 + w7 + s1) % 2 ^ 32) :: w)
    | _ => w

/-- One round of the compression function on the working variables. -/
def round (v : List Nat) (kw : Nat × Nat) : List Nat :=
  match v with
  | [a, b, c, d, e, f, g, h] =>
    let s1 := rotr e 6 ^^^ rotr e 11 ^^^ rotr e 25
    let ch := (e &&& f) ^^^ ((4294967295 - e) &&& g)
    let t1 := (h + s1 + ch + kw.1 + kw.2) % 2 ^ 32
    let s0 := rotr a 2 ^^^ rotr a 13 ^^^ rotr a 22
    let maj := (a &&& b) ^^^ (a &&& c) ^^^ (b &&& c)
    let t2 := (s0 + maj) % 2 ^ 32
    [(t1 + t2) % 2 ^ 32, a, b, c, (d + t1) % 2 ^ 32, e, f, g]
  | _ => v

/-- The compression function: the state after one 16-word block. -/
def compress (state block : List Nat) : List Nat :=
  let w := (extend 48 block.reverse).reverse
  let v := (roundConstants.zip w).foldl round state
  List.zipWith (fun x y => (x + y) % 2 ^ 32) state v

/-- The blocks of 16 words of a word list. -/
def blocks : Nat → List Nat → List (List Nat)
  | 0, _ => []
  | k + 1, ws => ws.take 16 :: blocks k (ws.drop 16)

/-- The eight state words after the whole padded message. -/
def digestWords (m : List Nat) : List Nat :=
  let ws := toWords (pad m)
  (blocks (ws.length / 16) ws).foldl compress initialState

/-- Byte `i` (of 32) of the digest, big-endian within each state word. -/
def digestByte (ws : List Nat) (i : Nat) : Nat :=
  (ws.getD (i / 4) 0) >>> (8 * (3 - i % 4)) % 256

end sha2

/-- SHA-256 (FIPS 180-4), the function `sha256.Sum256` of the standard
library computes.  It instantiates the digest parameter in the worked
examples; the general theorems hold for every digest function. -/
def sha2.Sum256 : Sha256 := fun m =>
  let ws := sha2.digestWords (m.map Fin.val)
  ⟨(List.range 32).map fun i => ⟨sha2.digestByte ws i, Nat.mod_lt _ (by decide)⟩, by simp⟩

/-- The ASCII white space `strings.TrimSpace` removes: tab, line feed,
vertical tab, form feed, carriage return and space. -/
def asciiSpace (b : Byte) : Bool :=
  b.val = 9 ∨ b.val = 10 ∨ b.val = 11 ∨ b.val = 12 ∨ b.val = 13 ∨ b.val = 32

/-- What `strings.TrimSpace` returns on a string of ASCII characters: leading
and trailing white space removed.  It instantiates the `TrimSpace` parameter in
the worked examples. -/
def trimSpaceASCII (s : List Byte) : List Byte :=
  ((s.dropWhile asciiSpace).reverse.dropWhile asciiSpace).reverse

/-- The word list of the specification's scenarios: "alpha", "bravo",
"charlie". -/
def scenarioWords : List (List Byte) :=
  [[97, 108, 112, 104, 97], [98, 114, 97, 118, 111], [99, 104, 97, 114, 108, 105, 101]]

/-- The PIN of the specification's scenarios: "1234". -/
def scenarioPin : List Byte := [49, 50, 51, 52]

/-- A twelve-word phrase for the worked examples: "abandon", "ability",
"able", "about", "above", "absent", "absorb", "abstract", "absurd", "abuse",
"access", "accident". -/
def examplePhrase : List (List Byte) :=
  [[97, 98, 97, 110, 100, 111, 110], [97, 98, 105, 108, 105, 116, 121], [97, 98, 108, 101],
   [97, 98, 111, 117, 116], [97, 98, 111, 118, 101], [97, 98, 115, 101, 110, 116],
   [97, 98, 115, 111, 114, 98], [97, 98, 115, 116, 114, 97, 99, 116],
   [97, 98, 115, 117, 114, 100], [97, 98, 117, 115, 101], [97, 99, 99, 101, 115, 115],
   [97, 99, 99, 105, 100, 101, 110, 116]]

/-- The database after `Create` stored `examplePhrase` under the name "main"
and the PIN "1234" in an empty database at time 0, with SHA-256 as the digest
(see `create_example`). -/
def exampleDB : wallet.DB :=
  { wallets :=
      [{ id := 1, name := [109, 97, 105, 110],
         pin_hash := [167, 25, 248, 34, 233, 140, 82, 10, 9, 183, 23, 202, 82, 166, 46, 231, 51,
           227, 59, 162, 231, 177, 213, 236, 188, 119, 99, 245, 215, 119, 131, 3],
         created_at := 0, phrase_len := 12 }],
    words :=
      [{ wallet_id := 1, slot := 4, ciphertext := [183, 129, 122, 147, 146, 99, 59] },
       { wallet_id := 1, slot := 7, ciphertext := [223, 19, 207, 91, 176, 158, 160] },
       { wallet_id := 1, slot := 8, ciphertext := [186, 74, 97, 137] },
       { wallet_id := 1, slot := 10, ciphertext := [20, 163, 89, 1, 24] },
       { wallet_id := 1, slot := 3, ciphertext := [88, 167, 114, 160, 85] },
       { wallet_id := 1, slot := 2, ciphertext := [151, 247, 26, 16, 68, 172] },
       { wallet_id := 1, slot := 11, ciphertext := [161, 2, 153, 216, 37, 133] },
       { wallet_id := 1, slot := 6, ciphertext := [121, 112, 238, 55, 138, 224, 7, 94] },
       { wallet_id := 1, slot := 5, ciphertext := [1, 71, 227, 10, 105, 161] },
       { wallet_id := 1, slot := 0, ciphertext := [20, 143, 159, 227, 60] },
       { wallet_id := 1, slot := 1, ciphertext := [95, 128, 90, 34, 173, 145] },
       { wallet_id := 1, slot := 9, ciphertext := [60, 82, 203, 129, 104, 255, 95, 66] }] }

/-! ## The generator step -/

namespace crypto

theorem xor_mod_two_pow (a b w : Nat) : (a ^^^ b) % 2 ^ w = a % 2 ^ w ^^^ b % 2 ^ w := by
  apply Nat.eq_of_testBit_eq
  intro i
  simp only [Nat.testBit_mod_two_pow, Nat.testBit_xor]
  by_cases h : i < w <;> simp [h]

theorem shiftRight_lt_two_pow {a w : Nat} (k : Nat) (h : a < 2 ^ w) : a >>> k < 2 ^ w := by
  rw [Nat.shiftRight_eq_div_pow]
  exact lt_of_le_of_lt (Nat.div_le_self _ _) h

theorem next_state_lt (x : xorshift128plus) (h0 : x.s0 < 2 ^ 64) (h1 : x.s1 < 2 ^ 64) :
    x.next.2.s0 < 2 ^ 64 ∧ x.next.2.s1 < 2 ^ 64 ∧ x.next.1 < 2 ^ 64 := by
  refine ⟨h1, ?_, Nat.mod_lt _ (by decide)⟩
  simp only [xorshift128plus.next]
  have ha : x.s0 ^^^ (x.s0 <<< 23) % 2 ^ 64 < 2 ^ 64 :=
    Nat.xor_lt_two_pow h0 (Nat.mod_lt _ (by decide))
  have hb := Nat.xor_lt_two_pow ha (shiftRight_lt_two_pow 17 ha)
  have hc := Nat.xor_lt_two_pow hb h1
  exact Nat.xor_lt_two_pow hc (shiftRight_lt_two_pow 26 h1)

theorem next_eq_specStep (s0 s1 : Nat) (h0 : s0 < 2 ^ 64) (h1 : s1 < 2 ^ 64) :
    let r := xorshift128plus.next { s0 := s0, s1 := s1 }
    (r.2.s0, r.2.s1, r.1) = specStep s0 s1 := by
  have ha : s0 ^^^ (s0 <<< 23) % 2 ^ 64 < 2 ^ 64 :=
    Nat.xor_lt_two_pow h0 (Nat.mod_lt _ (by decide))
  have hb := Nat.xor_lt_two_pow ha (shiftRight_lt_two_pow 17 ha)
  have hc := Nat.xor_lt_two_pow hb h1
  have hd := Nat.xor_lt_two_pow hc (shiftRight_lt_two_pow 26 h1)
  have e1 : (s0 ^^^ s0 <<< 23) % 2 ^ 64 = s0 ^^^ (s0 <<< 23) % 2 ^ 64 := by
    rw [xor_mod_two_pow, Nat.mod_eq_of_lt h0]
  simp only [xorshift128plus.next, specStep]
  rw [e1, Nat.mod_eq_of_lt hb, Nat.mod_eq_of_lt hc, Nat.mod_eq_of_lt hd]

end crypto

/-! ## `BuildPermutationN` returns a permutation of `0..n-1` -/

namespace crypto

theorem assign_eq {α : Type} (xs : List α) (i : Nat) (v : α) (h : i < xs.length) :
    assign xs i v = some (xs.set i v) := by
  simp [assign, h]

theorem fillLoop_range' (m : Nat) : ∀ s : Nat,
    fillLoop (List.range' s m) (List.range s ++ List.replicate m 0) = some (List.range (s + m)) := by
  induction m with
  | zero => intro s; simp [fillLoop]
  | succ m ih =>
    intro s
    have hlen : s < (List.range s ++ List.replicate (m + 1) 0).length := by simp
    have hset : (List.range s ++ List.replicate (m + 1) 0).set s s
        = List.range (s + 1) ++ List.replicate m 0 := by
      rw [List.set_append_right _ _ (by simp)]
      simp [List.replicate_succ, List.range_succ]
    rw [List.range'_succ, fillLoop, assign_eq _ _ _ hlen, hset]
    simp only []
    rw [ih (s + 1)]
    congr 2
    omega

theorem fillLoop_range (n : Nat) :
    fillLoop (List.range n) (List.replicate n 0) = some (List.range n) := by
  have h := fillLoop_range' n 0
  simpa [List.range_eq_range'] using h

theorem cons_set_perm {α : Type} (x : α) : ∀ (xs : List α) (k : Nat) (h : k < xs.length),
    List.Perm (xs[k] :: xs.set k x) (x :: xs) := by
  intro xs
  induction xs with
  | nil => intro k h; simp at h
  | cons y ys ih =>
    intro k h
    cases k with
    | zero => simpa using List.Perm.swap x y ys
    | succ k =>
      have hk : k < ys.length := by simpa using h
      have h1 : List.Perm (ys[k] :: y :: ys.set k x) (y :: ys[k] :: ys.set k x) :=
        List.Perm.swap _ _ _
      have h2 : List.Perm (y :: ys[k] :: ys.set k x) (y :: x :: ys) :=
        List.Perm.cons y (ih k hk)
      have h3 : List.Perm (y :: x :: ys) (x :: y :: ys) := List.Perm.swap _ _ _
      simpa using (h1.trans h2).trans h3

theorem swap_perm {α : Type} : ∀ (l : List α) (a b : Nat) (ha : a < l.length) (hb : b < l.length),
    List.Perm ((l.set a l[b]).set b l[a]) l := by
  intro l
  induction l with
  | nil => intro a b ha; simp at ha
  | cons x xs ih =>
    intro a b ha hb
    cases a with
    | zero =>
      cases b with
      | zero => simp
      | succ b =>
        have hb' : b < xs.length := by simpa using hb
        simpa using cons_set_perm x xs b hb'
    | succ a =>
      have ha' : a < xs.length := by simpa using ha
      cases b with
      | zero => simpa using cons_set_perm x xs a ha'
      | succ b =>
        have hb' : b < xs.length := by simpa using hb
        simpa using List.Perm.cons x (ih a b ha' hb')

theorem shuffleLoop_perm : ∀ (i : Nat) (prng : xorshift128plus) (perm : List Nat),
    i + 1 ≤ perm.length ∨ i = 0 →
    ∃ out, shuffleLoop i prng perm = some out ∧ List.Perm out perm := by
  intro i
  induction i with
  | zero => intro prng perm _; exact ⟨perm, rfl, List.Perm.refl _⟩
  | succ i ih =>
    intro prng perm h
    have hi : i + 1 < perm.length := by omega
    have hj : prng.next.1 % (i + 1 + 1) < perm.length :=
      lt_of_lt_of_le (Nat.mod_lt _ (by omega)) (by omega)
    have hlen1 : prng.next.1 % (i + 1 + 1) < (perm.set (i + 1) perm[prng.next.1 % (i + 1 + 1)]).length := by
      simpa using hj
    obtain ⟨out, hout, hperm⟩ := ih prng.next.2
      ((perm.set (i + 1) perm[prng.next.1 % (i + 1 + 1)]).set (prng.next.1 % (i + 1 + 1)) perm[i + 1])
      (Or.inl (by simp; omega))
    refine ⟨out, ?_, hperm.trans (swap_perm perm _ _ hi hj)⟩
    rw [shuffleLoop]
    simp only [umod, Nat.succ_ne_zero, if_false, Nat.add_eq, List.getElem?_eq_getElem hj,
      List.getElem?_eq_getElem hi, assign_eq _ _ _ hi, assign_eq _ _ _ hlen1]
    exact hout

theorem BuildPermutationN_perm (sha256 : Sha256) (key : Bytes32) (n : Nat) :
    ∃ perm, BuildPermutationN sha256 key n = some perm ∧ List.Perm perm (List.range n) := by
  obtain ⟨out, hout, hperm⟩ := shuffleLoop_perm (n - 1)
    (newXorShiftFromSeed sha256 (key.val.take 16)) (List.range n)
    (by cases n with
        | zero => right; rfl
        | succ n => left; simp)
  exact ⟨out, by simp [BuildPermutationN, fillLoop_range, hout], hperm⟩

end crypto

/-! ## `invertPermutation` -/

namespace crypto

theorem invertLoop_spec : ∀ (ps : List Nat) (i : Nat) (inv : List Nat),
    (∀ p ∈ ps, p < inv.length) → ps.Nodup →
    ∃ out, invertLoop i ps inv = some out ∧ out.length = inv.length ∧
      (∀ k (h : k < ps.length), out[ps[k]]? = some (i + k)) ∧
      (∀ q, q ∉ ps → out[q]? = inv[q]?) := by
  intro ps
  induction ps with
  | nil =>
    intro i inv _ _
    exact ⟨inv, rfl, rfl, fun k h => absurd h (by simp), fun _ _ => rfl⟩
  | cons p ps ih =>
    intro i inv hlt hnd
    have hp : p < inv.length := hlt p (List.mem_cons_self _ _)
    obtain ⟨hpn, hnd'⟩ := List.nodup_cons.mp hnd
    obtain ⟨out, hout, hlen, hidx, hother⟩ := ih (i + 1) (inv.set p i)
      (fun q hq => by simpa using hlt q (List.mem_cons_of_mem _ hq)) hnd'
    refine ⟨out, ?_, by simpa using hlen, ?_, ?_⟩
    · rw [invertLoop, assign_eq _ _ _ hp]; exact hout
    · intro k hk
      cases k with
      | zero =>
        simp only [List.getElem_cons_zero, Nat.add_zero]
        rw [hother p hpn, List.getElem?_set_self hp]
      | succ k =>
        have hk' : k < ps.length := by simpa using hk
        simp only [List.getElem_cons_succ]
        rw [hidx k hk']
        congr 1
        omega
    · intro q hq
      have hqp : q ≠ p := fun e => hq (e ▸ List.mem_cons_self _ _)
      have hqs : q ∉ ps := fun m => hq (List.mem_cons_of_mem _ m)
      rw [hother q hqs, List.getElem?_set_ne (Ne.symm hqp)]

/-- What `invertPermutation` returns on a permutation of `0..n-1`. -/
theorem invertPermutation_spec (perm : List Nat) (n : Nat) (hperm : List.Perm perm (List.range n)) :
    ∃ inv, invertPermutation perm = some inv ∧ inv.length = n ∧
      (∀ k (h : k < perm.length), inv[perm[k]]? = some k) ∧
      (∀ (a b i : Nat), inv[a]? = some i → inv[b]? = some i → a = b) := by
  have hlen : perm.length = n := by simpa using hperm.length_eq
  have hnd : perm.Nodup := hperm.symm.nodup_iff.mp (List.nodup_range n)
  have hmem : ∀ p, p ∈ perm ↔ p < n := fun p => by rw [hperm.mem_iff, List.mem_range]
  obtain ⟨inv, hinv, hl, hidx, _⟩ := invertLoop_spec perm 0 (List.replicate perm.length 0)
    (fun p hp => by simpa [hlen] using (hmem p).mp hp) hnd
  have hl' : inv.length = n := by simpa [hlen] using hl
  have hidx' : ∀ k (h : k < perm.length), inv[perm[k]]? = some k := fun k h => by
    simpa using hidx k h
  refine ⟨inv, hinv, hl', hidx', ?_⟩
  intro a b i ha hb
  have hal : a < n := by
    have := (List.getElem?_eq_some_iff.mp ha).1
    omega
  have hbl : b < n := by
    have := (List.getElem?_eq_some_iff.mp hb).1
    omega
  obtain ⟨ka, hka, rfl⟩ := List.getElem_of_mem ((hmem a).mpr hal)
  obtain ⟨kb, hkb, rfl⟩ := List.getElem_of_mem ((hmem b).mpr hbl)
  have e1 := hidx' ka hka
  have e2 := hidx' kb hkb
  rw [ha] at e1
  rw [hb] at e2
  have : ka = kb := by
    have h1 : i = ka := by simpa using e1
    have h2 : i = kb := by simpa using e2
    omega
  subst this
  rfl

end crypto

/-! ## `maskBytes` and the keystream -/

namespace crypto

theorem putUint64_length (v : Nat) : (putUint64 v).length = 8 := by
  simp [putUint64]

theorem streamBytes_length (k : Nat) : ∀ x, (streamBytes k x).length = 8 * k := by
  induction k with
  | zero => intro x; rfl
  | succ k ih => intro x; simp [streamBytes, putUint64_length, ih]; omega

theorem streamBytes_take_stable (k : Nat) : ∀ (k' : Nat) (x : xorshift128plus) (n : Nat),
    n ≤ 8 * k → n ≤ 8 * k' → (streamBytes k x).take n = (streamBytes k' x).take n := by
  induction k with
  | zero =>
    intro k' x n h _
    have : n = 0 := by omega
    subst this
    simp
  | succ k ih =>
    intro k' x n h h'
    cases k' with
    | zero =>
      have : n = 0 := by omega
      subst this
      simp
    | succ k' =>
      simp only [streamBytes, List.take_append_eq_append_take, putUint64_length]
      rw [ih k' x.next.2 (n - 8) (by omega) (by omega)]

theorem maskLoop_spec (n : Nat) : ∀ (fuel : Nat) (prng : xorshift128plus) (out : List Byte)
    (off : Nat), out.length = n → off ≤ n → n - off ≤ 8 * fuel →
    maskLoop n fuel prng out off
      = some (out.take off ++ (streamBytes fuel prng).take (n - off)) := by
  intro fuel
  induction fuel with
  | zero =>
    intro prng out off hlen hoff hfuel
    have : off = n := by omega
    subst this
    simp [maskLoop, streamBytes, ← hlen]
  | succ fuel ih =>
    intro prng out off hlen hoff hfuel
    rw [maskLoop]
    by_cases hlt : off < n
    · simp only [hlt, if_true]
      have hbuf := putUint64_length prng.next.1
      by_cases h8 : n - off < 8
      · simp only [h8, if_true]
        have hl : (out.take off ++ (putUint64 prng.next.1).take (n - off)).length
            = off + (n - off) := by
          simp [hbuf]; omega
        have hc : copyInto out off (off + (n - off)) (putUint64 prng.next.1) (n - off)
            = some (out.take off ++ (putUint64 prng.next.1).take (n - off)) := by
          simp only [copyInto, hbuf]
          rw [if_pos ⟨by omega, by omega, by omega⟩]
          have : off + min (off + (n - off) - off) (n - off) = out.length := by omega
          rw [this, List.drop_length]
          simp
        have e1 : (out.take off ++ (putUint64 prng.next.1).take (n - off)).take (off + (n - off))
            = out.take off ++ (putUint64 prng.next.1).take (n - off) := by
          rw [← hl, List.take_length]
        have e2 : (streamBytes (fuel + 1) prng).take (n - off)
            = (putUint64 prng.next.1).take (n - off) := by
          have hz : n - off - 8 = 0 := by omega
          rw [streamBytes, List.take_append_eq_append_take, hbuf, hz, List.take_zero,
            List.append_nil]
        have hz : n - (off + (n - off)) = 0 := by omega
        rw [hc]
        simp only []
        rw [ih _ _ _ (by rw [hl]; omega) (by omega) (by omega), e1, e2, hz, List.take_zero,
          List.append_nil]
      · simp only [h8, if_false]
        have hl : (out.take off ++ putUint64 prng.next.1).length = off + 8 := by
          simp [hbuf]; omega
        have hc : copyInto out off (off + 8) (putUint64 prng.next.1) 8
            = some (out.take off ++ putUint64 prng.next.1 ++ out.drop (off + 8)) := by
          simp only [copyInto, hbuf]
          rw [if_pos ⟨by omega, by omega, by omega⟩]
          have h1 : min (off + 8 - off) 8 = 8 := by omega
          have ht : (putUint64 prng.next.1).take 8 = putUint64 prng.next.1 :=
            List.take_of_length_le (by rw [hbuf])
          rw [h1, ht]
        have e1 : (out.take off ++ putUint64 prng.next.1 ++ out.drop (off + 8)).take (off + 8)
            = out.take off ++ putUint64 prng.next.1 := by
          rw [← hl, List.take_left]
        have e2 : (streamBytes (fuel + 1) prng).take (n - off)
            = putUint64 prng.next.1 ++ (streamBytes fuel prng.next.2).take (n - (off + 8)) := by
          have hz : n - off - 8 = n - (off + 8) := by omega
          have ht : (putUint64 prng.next.1).take (n - off) = putUint64 prng.next.1 :=
            List.take_of_length_le (by rw [hbuf]; omega)
          rw [streamBytes, List.take_append_eq_append_take, hbuf, hz, ht]
        have hlen1 : (out.take off ++ putUint64 prng.next.1 ++ out.drop (off + 8)).length = n := by
          simp [hbuf]; omega
        rw [hc]
        simp only []
        rw [ih _ _ _ hlen1 (by omega) (by omega), e1, e2, List.append_assoc]
    · have : off = n := by omega
      subst this
      simp [← hlen]

theorem maskBytes_eq (sha256 : Sha256) (seed : List Byte) (n k : Nat) (hk : n ≤ 8 * k) :
    maskBytes sha256 seed n = some ((streamBytes k (newXorShiftFromSeed sha256 seed)).take n) := by
  rw [maskBytes, maskLoop_spec n n _ _ 0 (by simp) (by omega) (by omega)]
  simp only [List.take_zero, List.nil_append, Nat.sub_zero]
  rw [streamBytes_take_stable n k _ n (by omega) hk]

theorem maskBytes_length (sha256 : Sha256) (seed : List Byte) (n : Nat) :
    ∃ mask, maskBytes sha256 seed n = some mask ∧ mask.length = n := by
  have h : n ≤ 8 * n := by omega
  refine ⟨_, maskBytes_eq sha256 seed n n h, ?_⟩
  simp [streamBytes_length, h]

end crypto

/-! ## Masking a word and the rows of `EncryptWords` -/

namespace crypto

theorem byte_xor_cancel (a m : Byte) : (a ^^^ m) ^^^ m = a := by
  apply Fin.ext
  have ha : a.val < 2 ^ 8 := a.isLt
  have hm : m.val < 2 ^ 8 := m.isLt
  have h1 : (a.val ^^^ m.val) % 256 = a.val ^^^ m.val :=
    Nat.mod_eq_of_lt (Nat.xor_lt_two_pow ha hm)
  show ((a.val ^^^ m.val) % 256 ^^^ m.val) % 256 = a.val
  rw [h1, Nat.xor_assoc, Nat.xor_self, Nat.xor_zero, Nat.mod_eq_of_lt a.isLt]

theorem xorLoop_spec : ∀ (b mask : List Byte), b.length ≤ mask.length →
    ∃ c, xorLoop b mask = some c ∧ c.length = b.length ∧ xorLoop c mask = some b := by
  intro b
  induction b with
  | nil => intro mask _; exact ⟨[], by simp [xorLoop], rfl, by simp [xorLoop]⟩
  | cons x xs ih =>
    intro mask h
    cases mask with
    | nil => simp at h
    | cons m ms =>
      obtain ⟨c, hc, hl, hback⟩ := ih ms (by simpa using h)
      exact ⟨(x ^^^ m) :: c, by simp [xorLoop, hc], by simp [hl],
        by simp [xorLoop, hback, byte_xor_cancel]⟩

/-- One word masked under its index and unmasked again: the mask `maskBytes`
gives for the ciphertext is the one it gave for the word. -/
theorem word_roundtrip (sha256 : Sha256) (key : Bytes32) (i : Nat) (w : List Byte) :
    ∃ mask c, maskBytes sha256 (nonceForIndex sha256 key i) w.length = some mask ∧
      xorLoop w mask = some c ∧ c.length = w.length ∧
      maskBytes sha256 (nonceForIndex sha256 key i) c.length = some mask ∧
      xorLoop c mask = some w := by
  obtain ⟨mask, hmask, hlen⟩ := maskBytes_length sha256 (nonceForIndex sha256 key i) w.length
  obtain ⟨c, hc, hl, hback⟩ := xorLoop_spec w mask (by omega)
  exact ⟨mask, c, hmask, hc, hl, by rw [hl]; exact hmask, hback⟩

theorem encryptLoop_spec (sha256 : Sha256) (key : Bytes32) (perm : List Nat) :
    ∀ (ws : List (List Byte)) (i : Nat), i + ws.length ≤ perm.length →
    ∃ rows, encryptLoop sha256 key perm i ws = some rows ∧ rows.length = ws.length ∧
      ∀ k (hk : k < ws.length), ∃ (s : Nat) (mask c : List Byte),
        rows[k]? = some { Slot := (s : Int), Data := c } ∧ perm[i + k]? = some s ∧
        c.length = ws[k].length ∧
        maskBytes sha256 (nonceForIndex sha256 key (i + k)) c.length = some mask ∧
        xorLoop c mask = some ws[k] := by
  intro ws
  induction ws with
  | nil => intro i _; exact ⟨[], rfl, rfl, fun k hk => absurd hk (by simp)⟩
  | cons w ws ih =>
    intro i h
    have hi : i < perm.length := by simp at h; omega
    obtain ⟨mask, c, hmask, hc, hl, hmask', hback⟩ := word_roundtrip sha256 key i w
    obtain ⟨rest, hrest, hrl, hrk⟩ := ih (i + 1) (by simp at h; omega)
    refine ⟨{ Slot := (perm[i] : Int), Data := c } :: rest, ?_, by simp [hrl], ?_⟩
    · rw [encryptLoop, hmask]
      simp only [hc, List.getElem?_eq_getElem hi, hrest]
    · intro k hk
      cases k with
      | zero =>
        exact ⟨perm[i], mask, c, by simp, by simp [List.getElem?_eq_getElem hi], by simpa using hl,
          by simpa using hmask', by simpa using hback⟩
      | succ k =>
        have hk' : k < ws.length := by simpa using hk
        obtain ⟨s, mask1, c1, h1, h2, h3, h4, h5⟩ := hrk k hk'
        have e : i + 1 + k = i + (k + 1) := by omega
        rw [e] at h2 h4
        exact ⟨s, mask1, c1, by simpa using h1, h2, by simpa using h3, h4, by simpa using h5⟩

end crypto

/-! ## The length `DecryptWords` infers -/

namespace crypto

theorem wrapInt64_of_range (x : Int) (h0 : -2 ^ 63 ≤ x) (h1 : x < 2 ^ 63) : wrapInt64 x = x := by
  unfold wrapInt64
  omega

theorem inferLoop_char : ∀ (rs : List SlotCipher) (acc : Int),
    acc ≤ inferLoop rs acc ∧ (∀ r ∈ rs, wrapInt64 (r.Slot + 1) ≤ inferLoop rs acc) ∧
      (inferLoop rs acc = acc ∨ ∃ r ∈ rs, inferLoop rs acc = wrapInt64 (r.Slot + 1)) := by
  intro rs
  induction rs with
  | nil => intro acc; simp [inferLoop]
  | cons r rs ih =>
    intro acc
    rw [inferLoop]
    by_cases h : wrapInt64 (r.Slot + 1) > acc
    · simp only [h, if_true]
      obtain ⟨h1, h2, h3⟩ := ih (wrapInt64 (r.Slot + 1))
      refine ⟨by omega, ?_, ?_⟩
      · intro q hq
        rcases List.mem_cons.mp hq with rfl | hq
        · exact h1
        · exact h2 q hq
      · rcases h3 with h3 | ⟨q, hq, h3⟩
        · exact Or.inr ⟨r, List.mem_cons_self _ _, h3⟩
        · exact Or.inr ⟨q, List.mem_cons_of_mem _ hq, h3⟩
    · simp only [h, if_false]
      obtain ⟨h1, h2, h3⟩ := ih acc
      refine ⟨h1, ?_, ?_⟩
      · intro q hq
        rcases List.mem_cons.mp hq with rfl | hq
        · omega
        · exact h2 q hq
      · rcases h3 with h3 | ⟨q, hq, h3⟩
        · exact Or.inl h3
        · exact Or.inr ⟨q, List.mem_cons_of_mem _ hq, h3⟩

/-- The inferred length depends only on which rows are present. -/
theorem inferLoop_congr (rs rs' : List SlotCipher) (h : ∀ r, r ∈ rs ↔ r ∈ rs') :
    inferLoop rs 0 = inferLoop rs' 0 := by
  obtain ⟨a1, a2, a3⟩ := inferLoop_char rs 0
  obtain ⟨b1, b2, b3⟩ := inferLoop_char rs' 0
  apply le_antisymm
  · rcases a3 with a3 | ⟨r, hr, a3⟩
    · omega
    · rw [a3]; exact b2 r ((h r).mp hr)
  · rcases b3 with b3 | ⟨r, hr, b3⟩
    · omega
    · rw [b3]; exact a2 r ((h r).mpr hr)

/-- The inferred length when the slots present are below `n` and slot `n - 1`
is among them. -/
theorem inferN_eq (rs : List SlotCipher) (n : Nat) (hn : 0 < n) (hn63 : n < 2 ^ 63)
    (hlt : ∀ r ∈ rs, 0 ≤ r.Slot ∧ r.Slot < n)
    (htop : ∃ r ∈ rs, r.Slot = (n : Int) - 1) : inferN rs = n := by
  obtain ⟨a1, a2, a3⟩ := inferLoop_char rs 0
  have hw : ∀ r ∈ rs, wrapInt64 (r.Slot + 1) = r.Slot + 1 := fun r hr =>
    wrapInt64_of_range _ (by have := hlt r hr; omega) (by have := hlt r hr; omega)
  have hle : inferLoop rs 0 ≤ n := by
    rcases a3 with a3 | ⟨r, hr, a3⟩
    · omega
    · rw [a3, hw r hr]; have := hlt r hr; omega
  obtain ⟨r, hr, hs⟩ := htop
  have hge := a2 r hr
  rw [hw r hr, hs] at hge
  have : inferLoop rs 0 = n := by omega
  unfold inferN
  rw [this]
  have hne : ((n : Nat) : Int) ≠ 0 := by omega
  simp [hne]

/-- The inferred length is positive, bounds every slot present that is in
`[0, 2^63 - 1)`, and is attained by a row unless no row contributes. -/
theorem inferN_spec (rs : List SlotCipher)
    (hlt : ∀ r ∈ rs, 0 ≤ r.Slot ∧ r.Slot < 2 ^ 63 - 1) :
    0 < inferN rs ∧ (∀ r ∈ rs, r.Slot + 1 ≤ inferN rs) ∧
      (rs = [] → inferN rs = 24) ∧ (rs ≠ [] → ∃ r ∈ rs, inferN rs = r.Slot + 1) := by
  obtain ⟨a1, a2, a3⟩ := inferLoop_char rs 0
  have hw : ∀ r ∈ rs, wrapInt64 (r.Slot + 1) = r.Slot + 1 := fun r hr =>
    wrapInt64_of_range _ (by have := hlt r hr; omega) (by have := hlt r hr; omega)
  cases rs with
  | nil => simp [inferN, inferLoop]
  | cons r rs =>
    have hr := a2 r (List.mem_cons_self _ _)
    rw [hw r (List.mem_cons_self _ _)] at hr
    have hpos : 0 < inferLoop (r :: rs) 0 := by
      have := hlt r (List.mem_cons_self _ _); omega
    have hN : inferN (r :: rs) = inferLoop (r :: rs) 0 := by
      unfold inferN
      rw [if_neg (by omega)]
    rw [hN]
    refine ⟨hpos, fun q hq => by have := a2 q hq; rw [hw q hq] at this; exact this,
      fun h => by simp at h, fun _ => ?_⟩
    rcases a3 with a3 | ⟨q, hq, a3⟩
    · omega
    · exact ⟨q, hq, by rw [a3, hw q hq]⟩

end crypto

/-! ## The decryption loop: one row, and rows in any order -/

namespace crypto

theorem index_natCast {α : Type} (xs : List α) (s : Nat) : index xs (s : Int) = xs[s]? := by
  simp [index]

theorem index_eq_some {α : Type} (xs : List α) (s : Int) (a : α) (h : index xs s = some a) :
    0 ≤ s ∧ xs[s.toNat]? = some a := by
  unfold index at h
  by_cases h0 : 0 ≤ s
  · exact ⟨h0, by simpa [h0] using h⟩
  · simp [h0] at h

/-- The body of the decryption loop either panics whatever the array, or
writes one fixed word at one fixed index. -/
theorem decryptRow_cases (sha256 : Sha256) (key : Bytes32) (inv : List Nat) (r : SlotCipher) :
    (∀ o, decryptRow sha256 key inv o r = none) ∨
      ∃ i b, index inv r.Slot = some i ∧ ∀ o, decryptRow sha256 key inv o r = assign o i b := by
  cases hi : index inv r.Slot with
  | none => left; intro o; simp [decryptRow, hi]
  | some i =>
    cases hm : maskBytes sha256 (nonceForIndex sha256 key i) r.Data.length with
    | none => left; intro o; simp [decryptRow, hi, hm]
    | some mask =>
      cases hx : xorLoop r.Data mask with
      | none => left; intro o; simp [decryptRow, hi, hm, hx]
      | some b => right; exact ⟨i, b, rfl, fun o => by simp [decryptRow, hi, hm, hx]⟩

theorem decryptRow_of_index (sha256 : Sha256) (key : Bytes32) (inv : List Nat) (r : SlotCipher)
    (i : Nat) (hi : index inv r.Slot = some i) :
    ∃ b, ∀ o, decryptRow sha256 key inv o r = assign o i b := by
  obtain ⟨mask, hmask, hlen⟩ := maskBytes_length sha256 (nonceForIndex sha256 key i) r.Data.length
  obtain ⟨c, hc, _, _⟩ := xorLoop_spec r.Data mask (by omega)
  exact ⟨c, fun o => by simp [decryptRow, hi, hmask, hc]⟩

theorem decryptLoop_eq_foldl (sha256 : Sha256) (key : Bytes32) (inv : List Nat) :
    ∀ (rs : List SlotCipher) (o : List (List Byte)),
    decryptLoop sha256 key inv rs o
      = rs.foldl (fun acc r => acc.bind fun o => decryptRow sha256 key inv o r) (some o) := by
  intro rs
  induction rs with
  | nil => intro o; rfl
  | cons r rs ih =>
    intro o
    rw [decryptLoop, List.foldl_cons]
    cases h : decryptRow sha256 key inv o r with
    | none =>
      simp only [Option.some_bind, h]
      clear ih h
      induction rs with
      | nil => rfl
      | cons q qs ihq => simpa using ihq
    | some o1 => simp only [Option.some_bind, h]; exact ih o1

theorem assign_comm {α : Type} (o : List α) (i j : Nat) (b c : α) (h : i ≠ j) :
    (assign o i b).bind (fun o1 => assign o1 j c) = (assign o j c).bind (fun o1 => assign o1 i b) := by
  unfold assign
  by_cases hi : i < o.length <;> by_cases hj : j < o.length <;>
    simp [hi, hj, List.set_comm b c o h]

/-- Rows with pairwise distinct slots can be processed in any order. -/
theorem decryptLoop_perm (sha256 : Sha256) (key : Bytes32) (inv : List Nat)
    (hinj : ∀ (a b i : Nat), inv[a]? = some i → inv[b]? = some i → a = b)
    (rs rs' : List SlotCipher) (hp : List.Perm rs' rs)
    (hnd : (rs.map SlotCipher.Slot).Nodup) (o : List (List Byte)) :
    decryptLoop sha256 key inv rs' o = decryptLoop sha256 key inv rs o := by
  rw [decryptLoop_eq_foldl, decryptLoop_eq_foldl]
  refine (List.Perm.foldl_eq' hp.symm ?_ (some o)).symm
  intro x hx y hy z
  by_cases hxy : x = y
  · subst hxy; rfl
  have hslot : x.Slot ≠ y.Slot := fun e => hxy (List.inj_on_of_nodup_map hnd hx hy e)
  rcases decryptRow_cases sha256 key inv x with hxn | ⟨i, b, hxi, hxa⟩
  · cases z with
    | none => rfl
    | some o1 =>
      simp only [Option.some_bind, hxn, Option.none_bind]
      cases decryptRow sha256 key inv o1 y with
      | none => rfl
      | some o2 => simp [hxn]
  rcases decryptRow_cases sha256 key inv y with hyn | ⟨j, c, hyj, hya⟩
  · cases z with
    | none => rfl
    | some o1 =>
      simp only [Option.some_bind, hyn, Option.none_bind]
      cases decryptRow sha256 key inv o1 x with
      | none => rfl
      | some o2 => simp [hyn]
  have hij : i ≠ j := by
    intro e
    subst e
    obtain ⟨hx0, hxs⟩ := index_eq_some _ _ _ hxi
    obtain ⟨hy0, hys⟩ := index_eq_some _ _ _ hyj
    have := hinj _ _ _ hxs hys
    exact hslot (by omega)
  cases z with
  | none => rfl
  | some o1 =>
    simp only [Option.some_bind, hxa, hya]
    exact assign_comm o1 i j b c hij

end crypto

/-! ## The decryption loop on rows that decode to known words -/

namespace crypto

/-- The permutation `BuildPermutationN` returns together with its inverse. -/
theorem build_and_invert (sha256 : Sha256) (key : Bytes32) (n : Nat) :
    ∃ perm inv, BuildPermutationN sha256 key n = some perm ∧ List.Perm perm (List.range n) ∧
      perm.length = n ∧ invertPermutation perm = some inv ∧ inv.length = n ∧
      (∀ k (h : k < perm.length), inv[perm[k]]? = some k) ∧
      (∀ (a b i : Nat), inv[a]? = some i → inv[b]? = some i → a = b) ∧
      (∀ a, a < n → ∃ k, k < n ∧ perm[k]? = some a ∧ inv[a]? = some k) := by
  obtain ⟨perm, hb, hperm⟩ := BuildPermutationN_perm sha256 key n
  obtain ⟨inv, hinv, hl, hidx, hinj⟩ := invertPermutation_spec perm n hperm
  have hlen : perm.length = n := by simpa using hperm.length_eq
  refine ⟨perm, inv, hb, hperm, hlen, hinv, hl, hidx, hinj, ?_⟩
  intro a ha
  have hm : a ∈ perm := by rw [hperm.mem_iff, List.mem_range]; exact ha
  obtain ⟨k, hk, rfl⟩ := List.getElem_of_mem hm
  exact ⟨k, by omega, List.getElem?_eq_getElem hk, hidx k hk⟩

theorem perm_getElem?_lt (perm : List Nat) (n : Nat) (hperm : List.Perm perm (List.range n))
    (k s : Nat) (h : perm[k]? = some s) : s < n := by
  obtain ⟨hk, rfl⟩ := List.getElem?_eq_some_iff.mp h
  have hm : perm[k] ∈ perm := List.getElem_mem hk
  rw [hperm.mem_iff, List.mem_range] at hm
  exact hm

theorem perm_getElem?_inj (perm : List Nat) (n : Nat) (hperm : List.Perm perm (List.range n))
    (j k s : Nat) (hj : perm[j]? = some s) (hk : perm[k]? = some s) : j = k := by
  have hnd : perm.Nodup := hperm.symm.nodup_iff.mp (List.nodup_range n)
  obtain ⟨hj1, hj2⟩ := List.getElem?_eq_some_iff.mp hj
  obtain ⟨hk1, hk2⟩ := List.getElem?_eq_some_iff.mp hk
  exact (List.Nodup.getElem_inj_iff hnd).mp (hj2.trans hk2.symm)

theorem decryptLoop_total (sha256 : Sha256) (key : Bytes32) (inv : List Nat) (n : Nat)
    (hval : ∀ a, a < n → ∃ k, k < n ∧ inv[a]? = some k) :
    ∀ (rs : List SlotCipher) (o : List (List Byte)), o.length = n →
      (∀ r ∈ rs, 0 ≤ r.Slot ∧ r.Slot < n) →
      ∃ out, decryptLoop sha256 key inv rs o = some out ∧ out.length = n := by
  intro rs
  induction rs with
  | nil => intro o ho _; exact ⟨o, rfl, ho⟩
  | cons r rs ih =>
    intro o ho hr
    obtain ⟨h0, h1⟩ := hr r (List.mem_cons_self _ _)
    obtain ⟨k, hk, hik⟩ := hval r.Slot.toNat (by omega)
    have hidx : index inv r.Slot = some k := by simp [index, h0, hik]
    obtain ⟨b, hb⟩ := decryptRow_of_index sha256 key inv r k hidx
    obtain ⟨out, hout, hl⟩ := ih (o.set k b) (by simpa using ho)
      (fun q hq => hr q (List.mem_cons_of_mem _ hq))
    refine ⟨out, ?_, hl⟩
    rw [decryptLoop, hb o, assign_eq _ _ _ (by omega)]
    exact hout

/-- The decryption loop over rows that each decode to the word of their
logical index: covered indices hold their word, the others what they held. -/
theorem decryptLoop_words (sha256 : Sha256) (key : Bytes32) (inv : List Nat)
    (words : List (List Byte)) :
    ∀ (rs : List SlotCipher) (o : List (List Byte)), o.length = words.length →
      (∀ r ∈ rs, ∃ k w, words[k]? = some w ∧ index inv r.Slot = some k ∧
        ∀ o1, decryptRow sha256 key inv o1 r = assign o1 k w) →
      ∃ out, decryptLoop sha256 key inv rs o = some out ∧ out.length = words.length ∧
        ∀ j : Nat, ((∃ r ∈ rs, index inv r.Slot = some j) → out[j]? = words[j]?) ∧
          ((¬ ∃ r ∈ rs, index inv r.Slot = some j) → out[j]? = o[j]?) := by
  intro rs
  induction rs with
  | nil =>
    intro o ho _
    exact ⟨o, rfl, ho, fun j => ⟨fun ⟨r, hr, _⟩ => absurd hr (List.not_mem_nil r), fun _ => rfl⟩⟩
  | cons r rs ih =>
    intro o ho hr
    obtain ⟨k, w, hw, hidx, hdec⟩ := hr r (List.mem_cons_self _ _)
    have hk : k < o.length := by
      have := (List.getElem?_eq_some_iff.mp hw).1
      omega
    obtain ⟨out, hout, hl, hcov⟩ := ih (o.set k w) (by simpa using ho)
      (fun q hq => hr q (List.mem_cons_of_mem _ hq))
    refine ⟨out, ?_, hl, ?_⟩
    · rw [decryptLoop, hdec o, assign_eq _ _ _ hk]
      exact hout
    · intro j
      constructor
      · rintro ⟨q, hq, hqj⟩
        by_cases hc : ∃ r ∈ rs, index inv r.Slot = some j
        · exact (hcov j).1 hc
        · rw [(hcov j).2 hc]
          rcases List.mem_cons.mp hq with rfl | hq'
          · have : k = j := by rw [hidx] at hqj; exact Option.some.inj hqj
            subst this
            rw [List.getElem?_set_self hk, hw]
          · exact absurd ⟨q, hq', hqj⟩ hc
      · intro hnc
        have hc : ¬ ∃ r ∈ rs, index inv r.Slot = some j :=
          fun ⟨q, hq, hqj⟩ => hnc ⟨q, List.mem_cons_of_mem _ hq, hqj⟩
        have hkj : k ≠ j := fun e => hnc ⟨r, List.mem_cons_self _ _, e ▸ hidx⟩
        rw [(hcov j).2 hc, List.getElem?_set_ne hkj]

end crypto

/-! ## Decrypting a selection of the rows of `EncryptWords` -/

namespace crypto

/-- Everything `EncryptWords` computes: the permutation, its inverse, and rows
that each decode to the word of their logical index. -/
theorem encrypt_facts (sha256 : Sha256) (words : List (List Byte)) (pin : List Byte)
    (walletID : Int) :
    ∃ perm inv rows,
      BuildPermutationN sha256 (DeriveKey sha256 pin walletID) words.length = some perm ∧
      List.Perm perm (List.range words.length) ∧
      invertPermutation perm = some inv ∧ inv.length = words.length ∧
      EncryptWords sha256 words pin walletID = some rows ∧ rows.length = words.length ∧
      ∀ k, k < words.length → ∃ (s : Nat) (w c : List Byte),
        perm[k]? = some s ∧ words[k]? = some w ∧
        rows[k]? = some { Slot := (s : Int), Data := c } ∧ c.length = w.length ∧
        index inv (s : Int) = some k ∧
        ∀ o, decryptRow sha256 (DeriveKey sha256 pin walletID) inv o { Slot := (s : Int), Data := c }
          = assign o k w := by
  obtain ⟨perm, inv, hb, hperm, hlen, hinv, hil, hidx, _, _⟩ :=
    build_and_invert sha256 (DeriveKey sha256 pin walletID) words.length
  obtain ⟨rows, hrows, hrl, hrk⟩ :=
    encryptLoop_spec sha256 (DeriveKey sha256 pin walletID) perm words 0 (by omega)
  refine ⟨perm, inv, rows, hb, hperm, hinv, hil, by simp [EncryptWords, hb, hrows], hrl, ?_⟩
  intro k hk
  obtain ⟨s, mask, c, h1, h2, h3, h4, h5⟩ := hrk k hk
  rw [Nat.zero_add] at h2 h4
  have hs : perm[k] = s := by
    have := List.getElem?_eq_getElem (l := perm) (by omega : k < perm.length)
    rw [h2] at this
    exact (Option.some.inj this).symm
  have hi : index inv (s : Int) = some k := by
    rw [index_natCast, ← hs]
    exact hidx k (by omega)
  refine ⟨s, words[k], c, h2, List.getElem?_eq_getElem hk, h1, h3, hi, ?_⟩
  intro o
  simp only [decryptRow, hi, h4, h5]

/-- Decryption of any selection `rs` of the rows `EncryptWords` returned for
`words`, as long as the row in the top slot is among them: the result has the
length of `words`, holds the word at every index whose row is in `rs` and the
empty string at the others. -/
theorem decrypt_subrows (sha256 : Sha256) (words : List (List Byte)) (pin : List Byte)
    (walletID : Int) (hn : words.length < 2 ^ 63) (perm : List Nat) (rows rs : List SlotCipher)
    (hb : BuildPermutationN sha256 (DeriveKey sha256 pin walletID) words.length = some perm)
    (he : EncryptWords sha256 words pin walletID = some rows)
    (hsub : ∀ r ∈ rs, r ∈ rows)
    (htop : ∃ r ∈ rs, r.Slot = (words.length : Int) - 1) :
    ∃ out, DecryptWords sha256 rs pin walletID = some out ∧ out.length = words.length ∧
      ∀ (k s : Nat), perm[k]? = some s →
        ((∃ r ∈ rs, r.Slot = (s : Int)) → out[k]? = words[k]?) ∧
        ((¬ ∃ r ∈ rs, r.Slot = (s : Int)) → out[k]? = some []) := by
  obtain ⟨perm', inv, rows', hb', hperm, hinv, hil, he', hrl, hfacts⟩ :=
    encrypt_facts sha256 words pin walletID
  rw [hb] at hb'
  rw [he] at he'
  obtain rfl := Option.some.inj hb'
  obtain rfl := Option.some.inj he'
  have hrow : ∀ r ∈ rs, ∃ k w, words[k]? = some w ∧ index inv r.Slot = some k ∧
      (∃ s : Nat, perm[k]? = some s ∧ r.Slot = (s : Int)) ∧
      ∀ o1, decryptRow sha256 (DeriveKey sha256 pin walletID) inv o1 r = assign o1 k w := by
    intro r hr
    obtain ⟨k, hk, rfl⟩ := List.getElem_of_mem (hsub r hr)
    obtain ⟨s, w, c, h1, h2, h3, _, h5, h6⟩ := hfacts k (by omega)
    have hr' : rows[k] = { Slot := (s : Int), Data := c } := by
      have := List.getElem?_eq_getElem hk
      rw [h3] at this
      exact (Option.some.inj this).symm
    rw [hr']
    exact ⟨k, w, h2, h5, ⟨s, h1, rfl⟩, h6⟩
  have hpos : 0 < words.length := by
    obtain ⟨r, hr, hs⟩ := htop
    obtain ⟨k, w, hw, _⟩ := hrow r hr
    have := (List.getElem?_eq_some_iff.mp hw).1
    omega
  have hN : inferN rs = (words.length : Int) := by
    refine inferN_eq rs words.length hpos hn ?_ htop
    intro r hr
    obtain ⟨k, w, _, _, ⟨s, hs, hrs⟩, _⟩ := hrow r hr
    have := perm_getElem?_lt perm _ hperm k s hs
    omega
  obtain ⟨out, hout, hl, hcov⟩ := decryptLoop_words sha256 (DeriveKey sha256 pin walletID) inv
    words rs (List.replicate words.length []) (by simp)
    (fun r hr => by obtain ⟨k, w, h1, h2, _, h4⟩ := hrow r hr; exact ⟨k, w, h1, h2, h4⟩)
  refine ⟨out, ?_, hl, ?_⟩
  · simp only [DecryptWords, hN, Int.toNat_ofNat, hb, hinv]
    exact hout
  · intro k s hks
    have hk : k < words.length := by
      have := (List.getElem?_eq_some_iff.mp hks).1
      have := hperm.length_eq
      simp at this
      omega
    have hcover : (∃ r ∈ rs, index inv r.Slot = some k) ↔ ∃ r ∈ rs, r.Slot = (s : Int) := by
      constructor
      · rintro ⟨r, hr, hi⟩
        obtain ⟨k', w, _, hi', ⟨s', hs', hrs⟩, _⟩ := hrow r hr
        rw [hi] at hi'
        obtain rfl := Option.some.inj hi'
        rw [hks] at hs'
        obtain rfl := Option.some.inj hs'
        exact ⟨r, hr, hrs⟩
      · rintro ⟨r, hr, hrs⟩
        obtain ⟨k', w, _, hi', ⟨s', hs', hrs'⟩, _⟩ := hrow r hr
        have hss : s' = s := by omega
        subst hss
        have := perm_getElem?_inj perm _ hperm k' k s' hs' hks
        subst this
        exact ⟨r, hr, hi'⟩
    constructor
    · intro h
      exact (hcov k).1 (hcover.mpr h)
    · intro h
      rw [(hcov k).2 (fun hc => h (hcover.mp hc))]
      simp [hk]

/-- The rows `EncryptWords` returns carry pairwise distinct slots, one for each
value of `0..n-1`. -/
theorem encrypt_slots (sha256 : Sha256) (words : List (List Byte)) (pin : List Byte)
    (walletID : Int) (perm : List Nat) (rows : List SlotCipher)
    (hb : BuildPermutationN sha256 (DeriveKey sha256 pin walletID) words.length = some perm)
    (he : EncryptWords sha256 words pin walletID = some rows) :
    rows.map SlotCipher.Slot = perm.map Int.ofNat := by
  obtain ⟨perm', inv, rows', hb', hperm, hinv, hil, he', hrl, hfacts⟩ :=
    encrypt_facts sha256 words pin walletID
  rw [hb] at hb'
  rw [he] at he'
  obtain rfl := Option.some.inj hb'
  obtain rfl := Option.some.inj he'
  have hpl : perm.length = words.length := by simpa using hperm.length_eq
  apply List.ext_getElem?
  intro k
  by_cases hk : k < words.length
  · obtain ⟨s, w, c, h1, _, h3, _⟩ := hfacts k hk
    simp [List.getElem?_map, h1, h3]
  · have h1 : rows[k]? = none := List.getElem?_eq_none (by omega)
    have h2 : perm[k]? = none := List.getElem?_eq_none (by omega)
    simp [List.getElem?_map, h1, h2]

end crypto

/-! ## Decrypting after one row was deleted -/

namespace crypto

theorem mem_rows_of_slot (sha256 : Sha256) (words : List (List Byte)) (pin : List Byte)
    (walletID : Int) (perm : List Nat) (rows : List SlotCipher)
    (hb : BuildPermutationN sha256 (DeriveKey sha256 pin walletID) words.length = some perm)
    (he : EncryptWords sha256 words pin walletID = some rows) (a : Nat) :
    a < words.length ↔ ∃ r ∈ rows, r.Slot = (a : Int) := by
  have hs := encrypt_slots sha256 words pin walletID perm rows hb he
  obtain ⟨perm', hb', hperm⟩ := BuildPermutationN_perm sha256 (DeriveKey sha256 pin walletID)
    words.length
  rw [hb] at hb'
  obtain rfl := Option.some.inj hb'
  have h1 : (a : Int) ∈ rows.map SlotCipher.Slot ↔ a ∈ perm := by
    rw [hs, List.mem_map]
    constructor
    · rintro ⟨b, hb1, hb2⟩
      have : b = a := by simpa using hb2
      exact this ▸ hb1
    · intro h; exact ⟨a, h, rfl⟩
  rw [← List.mem_range, ← hperm.mem_iff, ← h1, List.mem_map]

end crypto

/-! ## `DecryptWords` on arbitrary rows -/

namespace crypto

theorem decrypt_perm_eq (sha256 : Sha256) (rows rows' : List SlotCipher) (pin : List Byte)
    (walletID : Int) (hp : List.Perm rows' rows) (hnd : (rows.map SlotCipher.Slot).Nodup) :
    DecryptWords sha256 rows' pin walletID = DecryptWords sha256 rows pin walletID := by
  have hN : inferN rows' = inferN rows := by
    unfold inferN
    rw [inferLoop_congr rows' rows (fun r => hp.mem_iff)]
  obtain ⟨perm, inv, hb, _, _, hinv, _, _, hinj, _⟩ :=
    build_and_invert sha256 (DeriveKey sha256 pin walletID) (inferN rows).toNat
  simp only [DecryptWords, hN, hb, hinv]
  exact decryptLoop_perm sha256 (DeriveKey sha256 pin walletID) inv hinj rows rows' hp hnd _

theorem decrypt_total (sha256 : Sha256) (rows : List SlotCipher) (pin : List Byte)
    (walletID : Int) (hr : ∀ r ∈ rows, 0 ≤ r.Slot ∧ r.Slot < 2 ^ 63 - 1) :
    ∃ out, DecryptWords sha256 rows pin walletID = some out ∧
      (out.length : Int) = inferN rows := by
  obtain ⟨hpos, hle, _, _⟩ := inferN_spec rows hr
  obtain ⟨perm, inv, hb, _, _, hinv, _, _, _, hval⟩ :=
    build_and_invert sha256 (DeriveKey sha256 pin walletID) (inferN rows).toNat
  obtain ⟨out, hout, hl⟩ := decryptLoop_total sha256 (DeriveKey sha256 pin walletID) inv
    (inferN rows).toNat (fun a ha => by obtain ⟨k, hk, _, hik⟩ := hval a ha; exact ⟨k, hk, hik⟩)
    rows (List.replicate (inferN rows).toNat []) (by simp)
    (fun r h => by have := hr r h; have := hle r h; omega)
  refine ⟨out, ?_, by omega⟩
  simp only [DecryptWords, hb, hinv]
  exact hout

theorem decrypt_nil (sha256 : Sha256) (pin : List Byte) (walletID : Int) :
    DecryptWords sha256 [] pin walletID = some (List.replicate 24 []) := by
  obtain ⟨perm, inv, hb, _, _, hinv, _, _, _, _⟩ :=
    build_and_invert sha256 (DeriveKey sha256 pin walletID) 24
  have hN : inferN [] = 24 := by simp [inferN, inferLoop]
  simp only [DecryptWords, hN]
  have : (24 : Int).toNat = 24 := rfl
  rw [this, hb]
  simp only [hinv, decryptLoop]

/-- Whatever the digest function, a row in slot `2^63 - 1` makes `DecryptWords`
panic: `r.Slot+1` wraps to a negative number, the length stays at the default
24, and `inv[r.Slot]` is out of range. -/
theorem decrypt_max_slot (sha256 : Sha256) (data pin : List Byte) (walletID : Int) :
    DecryptWords sha256 [{ Slot := 9223372036854775807, Data := data }] pin walletID = none := by
  obtain ⟨perm, inv, hb, _, _, hinv, hil, _, _, _⟩ :=
    build_and_invert sha256 (DeriveKey sha256 pin walletID) 24
  have hN : inferN [{ Slot := 9223372036854775807, Data := data }] = 24 := by
    simp only [inferN, inferLoop, wrapInt64]
    decide
  simp only [DecryptWords, hN]
  have : (24 : Int).toNat = 24 := rfl
  rw [this, hb]
  have h2 : index inv 9223372036854775807 = none := by
    unfold index
    rw [if_pos (by decide)]
    exact List.getElem?_eq_none (by rw [hil]; decide)
  simp only [hinv, decryptLoop, decryptRow, h2]

end crypto

/-! ## Round trip, bijectivity, deletion -/

namespace crypto

/-- C1. Round trip: for every non-empty word list (a Go slice, hence of fewer
than `2^63` words; the words are arbitrary byte strings), every PIN and every
owner id, `EncryptWords` returns rows, one per word, and `DecryptWords` applied
to those rows with the same PIN and id returns exactly the word list.  The
digest is an arbitrary function. -/
theorem encrypt_decrypt_roundtrip (sha256 : Sha256) (words : List (List Byte))
    (pin : List Byte) (walletID : Int) (hne : words ≠ []) (hlen : words.length < 2 ^ 63) :
    ∃ rows, EncryptWords sha256 words pin walletID = some rows ∧
      rows.length = words.length ∧ DecryptWords sha256 rows pin walletID = some words := by
  obtain ⟨perm, inv, rows, hb, hperm, _, _, he, hrl, _⟩ := encrypt_facts sha256 words pin walletID
  have hpos : 0 < words.length := List.length_pos.mpr hne
  have hmem := mem_rows_of_slot sha256 words pin walletID perm rows hb he
  obtain ⟨out, hout, hl, hcov⟩ := decrypt_subrows sha256 words pin walletID hlen perm rows rows
    hb he (fun _ h => h)
    (by obtain ⟨r, hr, hrs⟩ := (hmem (words.length - 1)).mp (by omega); exact ⟨r, hr, by omega⟩)
  refine ⟨rows, he, hrl, ?_⟩
  rw [hout]
  congr 1
  apply List.ext_getElem?
  intro j
  by_cases hj : j < words.length
  · have hpl : perm.length = words.length := by simpa using hperm.length_eq
    have hjs := List.getElem?_eq_getElem (l := perm) (by omega : j < perm.length)
    exact (hcov j _ hjs).1 ((hmem _).mp (perm_getElem?_lt perm _ hperm j _ hjs))
  · rw [List.getElem?_eq_none (by omega), List.getElem?_eq_none (by omega)]

/-- Witness of C1 on the specification's first scenario, with SHA-256 as the
digest. -/
theorem encrypt_decrypt_roundtrip_witness :
    ∃ rows, EncryptWords sha2.Sum256 scenarioWords scenarioPin 7 = some rows ∧
      rows.length = scenarioWords.length ∧
      DecryptWords sha2.Sum256 rows scenarioPin 7 = some scenarioWords :=
  encrypt_decrypt_roundtrip sha2.Sum256 scenarioWords scenarioPin 7 (by decide) (by decide)

/-- C2. Permutation bijectivity: for every key and every `n`,
`BuildPermutationN` returns (it does not panic, so there is no division by
zero) an array of length `n` in which each value of `0..n-1` occurs exactly
once and no other value occurs, the empty array for `n = 0`; and
`invertPermutation` applied to it returns an array `inv` of length `n` with
`inv[perm[i]] = i` for every `i < n`. -/
theorem permutation_bijective (sha256 : Sha256) (key : Bytes32) (n : Nat) :
    ∃ perm inv, BuildPermutationN sha256 key n = some perm ∧ perm.length = n ∧
      (∀ v, v < n → perm.count v = 1) ∧ (∀ v ∈ perm, v < n) ∧ (n = 0 → perm = []) ∧
      invertPermutation perm = some inv ∧ inv.length = n ∧
      ∀ i, i < n → ∃ p, perm[i]? = some p ∧ inv[p]? = some i := by
  obtain ⟨perm, inv, hb, hperm, hlen, hinv, hil, hidx, _, _⟩ := build_and_invert sha256 key n
  have hnd : perm.Nodup := hperm.symm.nodup_iff.mp (List.nodup_range n)
  refine ⟨perm, inv, hb, hlen, ?_, ?_, ?_, hinv, hil, ?_⟩
  · intro v hv
    exact List.count_eq_one_of_mem hnd (by rw [hperm.mem_iff, List.mem_range]; exact hv)
  · intro v hv
    rw [hperm.mem_iff, List.mem_range] at hv
    exact hv
  · intro h0
    exact List.length_eq_zero.mp (by omega)
  · intro i hi
    exact ⟨perm[i], List.getElem?_eq_getElem (by omega), hidx i (by omega)⟩

end crypto

/-! ## Row order, generator step, inferred length, keystream -/

namespace crypto

/-- C5. Decryption does not depend on row order: for rows with pairwise
distinct slots, every PIN and owner id and every reordering `rows'` of `rows`,
`DecryptWords` has the same outcome on `rows'` as on `rows`; that outcome is a
returned list when the slots lie in `[0, 2^63 - 1)`; and when `rows` is what
`EncryptWords` returned for a non-empty word list, decrypting `rows'` returns
that word list. -/
theorem decrypt_order_independent (sha256 : Sha256) (rows rows' : List SlotCipher)
    (pin : List Byte) (walletID : Int) (hp : List.Perm rows' rows)
    (hnd : (rows.map SlotCipher.Slot).Nodup) :
    DecryptWords sha256 rows' pin walletID = DecryptWords sha256 rows pin walletID ∧
    ((∀ r ∈ rows, 0 ≤ r.Slot ∧ r.Slot < 2 ^ 63 - 1) →
      ∃ out, DecryptWords sha256 rows pin walletID = some out ∧
        DecryptWords sha256 rows' pin walletID = some out) ∧
    (∀ words : List (List Byte), words ≠ [] → words.length < 2 ^ 63 →
      EncryptWords sha256 words pin walletID = some rows →
      DecryptWords sha256 rows' pin walletID = some words) := by
  have heq := decrypt_perm_eq sha256 rows rows' pin walletID hp hnd
  refine ⟨heq, ?_, ?_⟩
  · intro hr
    obtain ⟨out, hout, _⟩ := decrypt_total sha256 rows pin walletID hr
    exact ⟨out, hout, heq.trans hout⟩
  · intro words hne hlen he
    obtain ⟨perm, inv, rows1, hb, hperm, _, _, he1, hrl, _⟩ :=
      encrypt_facts sha256 words pin walletID
    rw [he] at he1
    obtain rfl := Option.some.inj he1
    have hpos : 0 < words.length := List.length_pos.mpr hne
    have hmem := mem_rows_of_slot sha256 words pin walletID perm rows hb he
    obtain ⟨out, hout, hl, hcov⟩ := decrypt_subrows sha256 words pin walletID hlen perm rows rows
      hb he (fun _ h => h)
      (by obtain ⟨r, hr, hrs⟩ := (hmem (words.length - 1)).mp (by omega); exact ⟨r, hr, by omega⟩)
    rw [heq, hout]
    congr 1
    apply List.ext_getElem?
    intro j
    by_cases hj : j < words.length
    · have hpl : perm.length = words.length := by simpa using hperm.length_eq
      have hjs := List.getElem?_eq_getElem (l := perm) (by omega : j < perm.length)
      exact (hcov j _ hjs).1 ((hmem _).mp (perm_getElem?_lt perm _ hperm j _ hjs))
    · rw [List.getElem?_eq_none (by omega), List.getElem?_eq_none (by omega)]

/-- Witness of C5: the rows of the specification's first scenario (SHA-256 as
the digest) and the same rows in slot order. -/
theorem decrypt_order_independent_witness :
    DecryptWords sha2.Sum256
        [{ Slot := 0, Data := [255, 251, 53, 87, 107] },
         { Slot := 1, Data := [79, 172, 10, 48, 161, 201, 134] },
         { Slot := 2, Data := [162, 176, 202, 206, 157] }] scenarioPin 7
      = DecryptWords sha2.Sum256
        [{ Slot := 2, Data := [162, 176, 202, 206, 157] },
         { Slot := 0, Data := [255, 251, 53, 87, 107] },
         { Slot := 1, Data := [79, 172, 10, 48, 161, 201, 134] }] scenarioPin 7 :=
  (decrypt_order_independent sha2.Sum256
    [{ Slot := 2, Data := [162, 176, 202, 206, 157] },
     { Slot := 0, Data := [255, 251, 53, 87, 107] },
     { Slot := 1, Data := [79, 172, 10, 48, 161, 201, 134] }]
    [{ Slot := 0, Data := [255, 251, 53, 87, 107] },
     { Slot := 1, Data := [79, 172, 10, 48, 161, 201, 134] },
     { Slot := 2, Data := [162, 176, 202, 206, 157] }] scenarioPin 7
    (by decide) (by decide)).1

/-- C8. The generator step is the specified recipe bit for bit: for every state
`(s0, s1)` of 64-bit words, `next` leaves the state `(s0', s1')` and returns the
value the recipe of the specification gives, with `s0' = s1` and the returned
value `(s0' + s1') mod 2^64`; the new state words are again 64-bit words. -/
theorem next_matches_spec (s0 s1 : Nat) (h0 : s0 < 2 ^ 64) (h1 : s1 < 2 ^ 64) :
    ((xorshift128plus.next { s0 := s0, s1 := s1 }).2.s0,
      (xorshift128plus.next { s0 := s0, s1 := s1 }).2.s1,
      (xorshift128plus.next { s0 := s0, s1 := s1 }).1) = specStep s0 s1 ∧
    (xorshift128plus.next { s0 := s0, s1 := s1 }).2.s0 = s1 ∧
    (xorshift128plus.next { s0 := s0, s1 := s1 }).1
      = ((xorshift128plus.next { s0 := s0, s1 := s1 }).2.s0
          + (xorshift128plus.next { s0 := s0, s1 := s1 }).2.s1) % 2 ^ 64 ∧
    (xorshift128plus.next { s0 := s0, s1 := s1 }).2.s0 < 2 ^ 64 ∧
    (xorshift128plus.next { s0 := s0, s1 := s1 }).2.s1 < 2 ^ 64 := by
  obtain ⟨b0, b1, _⟩ := next_state_lt { s0 := s0, s1 := s1 } h0 h1
  exact ⟨next_eq_specStep s0 s1 h0 h1, rfl, rfl, b0, b1⟩

/-- Witness of C8 at the state `(2^64 - 1, 1)`, where the left shift carries
out of 64 bits. -/
theorem next_matches_spec_witness :
    ((xorshift128plus.next { s0 := 18446744073709551615, s1 := 1 }).2.s0,
      (xorshift128plus.next { s0 := 18446744073709551615, s1 := 1 }).2.s1,
      (xorshift128plus.next { s0 := 18446744073709551615, s1 := 1 }).1)
      = specStep 18446744073709551615 1 :=
  (next_matches_spec 18446744073709551615 1 (by decide) (by decide)).1

set_option maxRecDepth 100000 in
/-- Counterexample to C9 as stated, with SHA-256 as the digest: the one row has
the non-negative slot `2^63 - 1`, the largest `int`; `r.Slot+1` wraps to
`-2^63`, the length stays at the default 24 and `inv[r.Slot]` panics. -/
theorem decrypt_max_slot_counterexample :
    (0 : Int) ≤ 9223372036854775807 ∧
    DecryptWords sha2.Sum256 [{ Slot := 9223372036854775807, Data := [] }] scenarioPin 7
      = none := by
  decide

/-- C9, amended. For every list of rows whose slots lie in `[0, 2^63 - 1)`,
every PIN and owner id, `DecryptWords` performs no out-of-range access and
returns a list whose length is the greatest `slot + 1` over the rows; when
there are no rows it returns exactly 24 empty strings. -/
theorem decrypt_length_inferred (sha256 : Sha256) (rows : List SlotCipher) (pin : List Byte)
    (walletID : Int) (hr : ∀ r ∈ rows, 0 ≤ r.Slot ∧ r.Slot < 2 ^ 63 - 1) :
    ∃ out, DecryptWords sha256 rows pin walletID = some out ∧
      (∀ r ∈ rows, r.Slot + 1 ≤ (out.length : Int)) ∧
      (rows ≠ [] → ∃ r ∈ rows, (out.length : Int) = r.Slot + 1) ∧
      (rows = [] → out = List.replicate 24 []) := by
  obtain ⟨out, hout, hl⟩ := decrypt_total sha256 rows pin walletID hr
  obtain ⟨_, hle, _, hatt⟩ := inferN_spec rows hr
  refine ⟨out, hout, fun r h => by rw [hl]; exact hle r h, fun h => by rw [hl]; exact hatt h, ?_⟩
  intro h
  subst h
  rw [decrypt_nil] at hout
  exact (Option.some.inj hout).symm

/-- Witness of C9, amended: two rows, in slots 5 and 2. -/
theorem decrypt_length_inferred_witness :
    ∃ out, DecryptWords sha2.Sum256
        [{ Slot := 5, Data := [1, 2] }, { Slot := 2, Data := [] }] scenarioPin 7 = some out ∧
      (∀ r ∈ [({ Slot := 5, Data := [1, 2] } : SlotCipher), { Slot := 2, Data := [] }],
        r.Slot + 1 ≤ (out.length : Int)) ∧
      ([({ Slot := 5, Data := [1, 2] } : SlotCipher), { Slot := 2, Data := [] }] ≠ [] →
        ∃ r ∈ [({ Slot := 5, Data := [1, 2] } : SlotCipher), { Slot := 2, Data := [] }],
          (out.length : Int) = r.Slot + 1) ∧
      ([({ Slot := 5, Data := [1, 2] } : SlotCipher), { Slot := 2, Data := [] }] = [] →
        out = List.replicate 24 []) :=
  decrypt_length_inferred sha2.Sum256 _ scenarioPin 7 (by decide)

/-- C10. Keystream construction: for every seed and every `n`, `maskBytes`
returns (the loop ends, within any bound of at least `n / 8` iterations, and
nothing panics) exactly `n` bytes, the first `n` bytes of the concatenation of
the 8-byte little-endian encodings of the successive outputs of a generator
seeded with `seed`; hence `maskBytes(seed, m)` is a prefix of
`maskBytes(seed, n)` whenever `m ≤ n`. -/
theorem maskBytes_keystream (sha256 : Sha256) (seed : List Byte) (n : Nat) :
    ∃ mask, maskBytes sha256 seed n = some mask ∧ mask.length = n ∧
      (∀ k, n ≤ 8 * k → mask = (streamBytes k (newXorShiftFromSeed sha256 seed)).take n) ∧
      (∀ fuel, n ≤ 8 * fuel →
        maskLoop n fuel (newXorShiftFromSeed sha256 seed) (List.replicate n 0) 0 = some mask) ∧
      (∀ m, m ≤ n → ∃ pre, maskBytes sha256 seed m = some pre ∧ pre <+: mask) := by
  obtain ⟨mask, hmask, hlen⟩ := maskBytes_length sha256 seed n
  have hk : ∀ k, n ≤ 8 * k →
      mask = (streamBytes k (newXorShiftFromSeed sha256 seed)).take n := by
    intro k hk
    have := maskBytes_eq sha256 seed n k hk
    rw [hmask] at this
    exact Option.some.inj this
  refine ⟨mask, hmask, hlen, hk, ?_, ?_⟩
  · intro fuel hf
    rw [maskLoop_spec n fuel _ _ 0 (by simp) (by omega) (by omega)]
    simp only [List.take_zero, List.nil_append, Nat.sub_zero]
    rw [hk fuel hf]
  · intro m hm
    refine ⟨_, maskBytes_eq sha256 seed m n (by omega), ?_⟩
    rw [hk n (by omega)]
    have e : (streamBytes n (newXorShiftFromSeed sha256 seed)).take m
        = ((streamBytes n (newXorShiftFromSeed sha256 seed)).take n).take m := by
      rw [List.take_take, Nat.min_eq_left hm]
    rw [e]
    exact List.take_prefix _ _

end crypto

/-! ## The wallet service: what `Create` stores -/

namespace wallet

theorem pinHash_eq_key (sha256 : Sha256) (pin : List Byte) (walletID : Int) :
    pinHash sha256 pin walletID = (crypto.DeriveKey sha256 pin walletID).val := rfl

theorem foldl_max_ge (l : List Int) : ∀ a : Int, a ≤ l.foldl max a ∧ ∀ x ∈ l, x ≤ l.foldl max a := by
  induction l with
  | nil => intro a; simp
  | cons y ys ih =>
    intro a
    obtain ⟨h1, h2⟩ := ih (max a y)
    simp only [List.foldl_cons]
    refine ⟨le_trans (le_max_left a y) h1, ?_⟩
    intro x hx
    rcases List.mem_cons.mp hx with rfl | hx
    · exact le_trans (le_max_right a x) h1
    · exact h2 x hx

theorem id_lt_lastInsertId (rows : List WalletRow) (w : WalletRow) (h : w ∈ rows) :
    w.id < lastInsertId rows := by
  have := (foldl_max_ge (rows.map WalletRow.id) 0).2 w.id (List.mem_map.mpr ⟨w, h, rfl⟩)
  unfold lastInsertId
  omega

theorem insertPairs_spec (id : Int) : ∀ (ps : List crypto.SlotCipher) (db db' : DB),
    insertPairs id ps db = some db' →
    db'.wallets = db.wallets ∧
      db'.words = db.words ++ ps.map fun p =>
        { wallet_id := id, slot := p.Slot, ciphertext := p.Data } := by
  intro ps
  induction ps with
  | nil =>
    intro db db' h
    simp only [insertPairs, Option.some.injEq] at h
    subst h
    simp
  | cons p ps ih =>
    intro db db' h
    rw [insertPairs] at h
    cases h1 : insertWord db id p.Slot p.Data with
    | none => rw [h1] at h; simp at h
    | some db1 =>
      rw [h1] at h
      obtain ⟨e1, e2⟩ := ih db1 db' h
      unfold insertWord at h1
      split at h1
      · simp at h1
      · simp only [Option.some.injEq] at h1
        subst h1
        exact ⟨e1, by rw [e2]; simp⟩

/-- What a successful `Create` leaves in the database. -/
theorem create_ok_spec (sha256 : Sha256) (TrimSpace : List Byte → List Byte) (db : DB)
    (now : Int) (name pin : List Byte) (words : List (List Byte)) (id : Int) (db' : DB)
    (h : Create sha256 TrimSpace db now name pin words = some (Except.ok id, db')) :
    ∃ pairs, crypto.EncryptWords sha256 words pin id = some pairs ∧
      db'.wallets = db.wallets ++
        [{ id := id, name := name, pin_hash := (crypto.DeriveKey sha256 pin id).val,
           created_at := now, phrase_len := (words.length : Int) }] ∧
      db'.words = db.words ++ pairs.map fun p =>
        { wallet_id := id, slot := p.Slot, ciphertext := p.Data } := by
  simp only [Create] at h
  by_cases h1 : words.length ≠ 12 ∧ words.length ≠ 18 ∧ words.length ≠ 24
  · rw [if_pos h1] at h
    simp at h
  rw [if_neg h1] at h
  by_cases h2 : (words.any fun w => decide (TrimSpace w = [])) = true
  · rw [if_pos h2] at h
    simp at h
  rw [if_neg h2] at h
  by_cases h3 : (db.wallets.any fun w => decide (w.name = name)) = true
  · simp only [insertWallet, if_pos h3] at h
    simp at h
  simp only [insertWallet, if_neg h3] at h
  cases he : crypto.EncryptWords sha256 words pin (lastInsertId db.wallets) with
  | none => rw [he] at h; simp at h
  | some pairs =>
    rw [he] at h
    simp only [] at h
    cases hins : insertPairs (lastInsertId db.wallets) pairs
        (updatePinHash
          { db with wallets := db.wallets ++
            [{ id := lastInsertId db.wallets, name := name, pin_hash := [0], created_at := now,
               phrase_len := (words.length : Int) }] }
          (pinHash sha256 pin (lastInsertId db.wallets)) (lastInsertId db.wallets)) with
    | none => rw [hins] at h; simp at h
    | some tx3 =>
      rw [hins] at h
      simp only [Option.some.injEq, Prod.mk.injEq, Except.ok.injEq] at h
      obtain ⟨hid, hdb⟩ := h
      subst hid hdb
      obtain ⟨e1, e2⟩ := insertPairs_spec _ pairs _ _ hins
      refine ⟨pairs, he, ?_, ?_⟩
      · rw [e1]
        simp only [updatePinHash, List.map_append, List.map_cons, List.map_nil, if_true,
          pinHash_eq_key]
        congr 1
        conv_rhs => rw [← List.map_id db.wallets]
        apply List.map_congr_left
        intro w hw
        have := id_lt_lastInsertId db.wallets w hw
        rw [if_neg (by omega)]
        rfl
      · rw [e2]
        simp [updatePinHash]

end wallet

/-! ## The wallet service: stored key, deletion by index, validation -/

namespace wallet

set_option maxRecDepth 100000 in
/-- A run of `Create` with SHA-256 as the digest: `examplePhrase` stored under
the name "main" and the PIN "1234" in an empty database at time 0. -/
theorem create_example :
    Create sha2.Sum256 trimSpaceASCII { wallets := [], words := [] } 0 [109, 97, 105, 110]
      scenarioPin examplePhrase = some (Except.ok 1, exampleDB) := by
  rfl

set_option maxRecDepth 100000 in
/-- C4. The claim is that no value `Create` writes to storage equals the key
`DeriveKey(pin, id)` of the created wallet.  The code does not keep to it: in
the run `create_example` (name "main", PIN "1234", `examplePhrase`, empty
database, SHA-256 as the digest) `Create` succeeds with id 1 and the wallet row
it writes has as `pin_hash` the 32 bytes of `DeriveKey("1234", 1)`, because
`pinHash` hashes the same bytes, the PIN followed by the little-endian id, as
`DeriveKey` does (`pinHash_eq_key`, `create_ok_spec`: so on every successful
run). -/
theorem create_writes_key :
    ∃ db', Create sha2.Sum256 trimSpaceASCII { wallets := [], words := [] } 0 [109, 97, 105, 110]
        scenarioPin examplePhrase = some (Except.ok 1, db') ∧
      ∃ row ∈ db'.wallets, row.pin_hash = (crypto.DeriveKey sha2.Sum256 scenarioPin 1).val :=
  ⟨exampleDB, create_example, _, List.mem_cons_self _ _, by decide⟩

set_option maxRecDepth 100000 in
/-- The run `create_example` continued, with SHA-256 as the digest: the seventh
word is deleted (its row is in the top slot 11) and the wallet is read back;
eleven entries come back, and only "abstract" and "absurd" among them are
words of the phrase. -/
theorem delete_then_view_example :
    ((DeleteWordAt sha2.Sum256 exampleDB 1 scenarioPin 7).bind fun r =>
        GetOrderedWords sha2.Sum256 r.2 1 scenarioPin)
      = some (Except.ok
          [[65, 20, 1, 237, 178, 160], [9, 240, 220, 164, 75, 137, 226], [207, 139, 84, 237, 69],
           [42, 65, 108, 86, 193, 14], [230, 214, 210, 141, 128, 15, 88],
           [202, 199, 162, 244, 66, 39, 51, 51], [152, 199, 152, 23, 2],
           [97, 98, 115, 116, 114, 97, 99, 116], [97, 98, 115, 117, 114, 100],
           [207, 167, 139, 25], [42, 108, 166, 164, 226]]) := by
  rfl

/-- C6. Deletion by logical index: in `DeleteWordAt`, once the PIN has verified
and the wallet's recorded phrase length is `n`, an index below 1 or above `n`
yields the error "index out of range" and the database is unchanged, so no row
is deleted.  For an index in `[1, n]` nothing panics, the lookup
`perm[index-1]` is in bounds and gives the slot
`BuildPermutationN(DeriveKey(pin, id), n)[index-1]`; the call returns no error
and leaves a database with the same wallets whose word rows are the former
ones, in their order, without those of this wallet in that slot: no such row
is left, and every other row, of this wallet or another, is kept.  That slot
is the one `EncryptWords` gives the word at logical position `index-1` of any
`n`-word list. -/
theorem deleteWordAt_spec (sha256 : Sha256) (db : DB) (walletID : Int) (pin : List Byte)
    (index1based n : Int) (hv : VerifyPIN sha256 db walletID pin = Except.ok true)
    (hn : selectPhraseLen db walletID = some n) :
    ((index1based < 1 ∨ n < index1based) →
      DeleteWordAt sha256 db walletID pin index1based = some (some "index out of range", db)) ∧
    (1 ≤ index1based → index1based ≤ n →
      ∃ (perm : List Nat) (slot : Nat) (db' : DB),
        crypto.BuildPermutationN sha256 (crypto.DeriveKey sha256 pin walletID) n.toNat
          = some perm ∧
        perm[(index1based - 1).toNat]? = some slot ∧
        DeleteWordAt sha256 db walletID pin index1based = some (none, db') ∧
        db'.wallets = db.wallets ∧
        db'.words = db.words.filter
          (fun r => decide (¬ (r.wallet_id = walletID ∧ r.slot = (slot : Int)))) ∧
        (∀ r ∈ db'.words, ¬ (r.wallet_id = walletID ∧ r.slot = (slot : Int))) ∧
        (∀ r ∈ db.words, ¬ (r.wallet_id = walletID ∧ r.slot = (slot : Int)) → r ∈ db'.words) ∧
        (∀ r ∈ db'.words, r ∈ db.words) ∧
        ∀ words : List (List Byte), words.length = n.toNat →
          ∃ rows r, crypto.EncryptWords sha256 words pin walletID = some rows ∧
            rows[(index1based - 1).toNat]? = some r ∧ r.Slot = (slot : Int)) := by
  constructor
  · intro hbad
    simp only [DeleteWordAt, hv, hn]
    rw [if_pos (by omega)]
  · intro h1 h2
    obtain ⟨perm, hb, hperm⟩ := crypto.BuildPermutationN_perm sha256
      (crypto.DeriveKey sha256 pin walletID) n.toNat
    have hpl : perm.length = n.toNat := by simpa using hperm.length_eq
    have hi : (index1based - 1).toNat < perm.length := by omega
    have hidx : crypto.index perm (index1based - 1) = some perm[(index1based - 1).toNat] := by
      unfold crypto.index
      rw [if_pos (by omega), List.getElem?_eq_getElem hi]
    have hwords : (deleteWord db walletID (perm[(index1based - 1).toNat] : Int)).words
        = db.words.filter (fun r =>
            decide (¬ (r.wallet_id = walletID ∧
              r.slot = ((perm[(index1based - 1).toNat] : Nat) : Int)))) := rfl
    refine ⟨perm, perm[(index1based - 1).toNat],
      deleteWord db walletID (perm[(index1based - 1).toNat] : Int), hb,
      List.getElem?_eq_getElem hi, ?_, rfl, hwords, ?_, ?_, ?_, ?_⟩
    · simp only [DeleteWordAt, hv, hn]
      rw [if_neg (by omega)]
      simp only [hb, hidx]
    · intro r hr
      rw [hwords, List.mem_filter] at hr
      exact of_decide_eq_true hr.2
    · intro r hr hne
      rw [hwords, List.mem_filter]
      exact ⟨hr, decide_eq_true hne⟩
    · intro r hr
      rw [hwords, List.mem_filter] at hr
      exact hr.1
    · intro words hw
      obtain ⟨perm1, inv, rows, hb1, _, _, _, he, hrl, hfacts⟩ :=
        crypto.encrypt_facts sha256 words pin walletID
      rw [hw, hb] at hb1
      obtain rfl := Option.some.inj hb1
      obtain ⟨s, w, c, hs, _, hr, _⟩ := hfacts (index1based - 1).toNat (by omega)
      refine ⟨rows, _, he, hr, ?_⟩
      rw [List.getElem?_eq_getElem hi] at hs
      simp only [Option.some.injEq] at hs
      show ((s : Nat) : Int) = ((perm[(index1based - 1).toNat] : Nat) : Int)
      rw [hs]

set_option maxRecDepth 100000 in
/-- Witness of C6: the seventh word of the wallet of `exampleDB`, with SHA-256
as the digest. -/
theorem deleteWordAt_spec_witness :
    ∃ (perm : List Nat) (slot : Nat) (db' : DB),
      crypto.BuildPermutationN sha2.Sum256 (crypto.DeriveKey sha2.Sum256 scenarioPin 1)
          (12 : Int).toNat = some perm ∧
      perm[((7 : Int) - 1).toNat]? = some slot ∧
      DeleteWordAt sha2.Sum256 exampleDB 1 scenarioPin 7 = some (none, db') ∧
      db'.wallets = exampleDB.wallets ∧
      db'.words = exampleDB.words.filter
        (fun r => decide (¬ (r.wallet_id = 1 ∧ r.slot = (slot : Int)))) ∧
      (∀ r ∈ db'.words, ¬ (r.wallet_id = 1 ∧ r.slot = (slot : Int))) ∧
      (∀ r ∈ exampleDB.words, ¬ (r.wallet_id = 1 ∧ r.slot = (slot : Int)) → r ∈ db'.words) ∧
      (∀ r ∈ db'.words, r ∈ exampleDB.words) ∧
      ∀ words : List (List Byte), words.length = (12 : Int).toNat →
        ∃ rows r, crypto.EncryptWords sha2.Sum256 words scenarioPin 1 = some rows ∧
          rows[((7 : Int) - 1).toNat]? = some r ∧ r.Slot = (slot : Int) :=
  (deleteWordAt_spec sha2.Sum256 exampleDB 1 scenarioPin 7 12 (by rfl) (by rfl)).2
    (by decide) (by decide)

set_option maxRecDepth 100000 in
/-- The deletion of the witness of C6 evaluated: the slot is 11, and of the
twelve word rows of `exampleDB` the one in slot 11 (the seventh) is gone, the
eleven others are left as they were. -/
theorem delete_seventh_example :
    crypto.BuildPermutationN sha2.Sum256 (crypto.DeriveKey sha2.Sum256 scenarioPin 1) 12
      = some [4, 7, 8, 10, 3, 2, 11, 6, 5, 0, 1, 9] ∧
    DeleteWordAt sha2.Sum256 exampleDB 1 scenarioPin 7
      = some (none,
          { wallets := exampleDB.wallets,
            words := exampleDB.words.take 6 ++ exampleDB.words.drop 7 }) ∧
    DeleteWordAt sha2.Sum256 exampleDB 1 scenarioPin 13
      = some (some "index out of range", exampleDB) ∧
    DeleteWordAt sha2.Sum256 exampleDB 1 scenarioPin 0
      = some (some "index out of range", exampleDB) := by
  refine ⟨by rfl, by rfl, by rfl, by rfl⟩

/-- A word of ASCII white space only is reduced to the empty string by
`trimSpaceASCII`. -/
theorem trimSpaceASCII_blank (w : List Byte) (h : ∀ b ∈ w, asciiSpace b = true) :
    trimSpaceASCII w = [] := by
  have h1 : w.dropWhile asciiSpace = [] := List.dropWhile_eq_nil_iff.mpr h
  simp [trimSpaceASCII, h1]

/-- C7. Input validation in `Create`: for every name, PIN and word list, if
the number of words is not 12, 18 or 24, or some word is empty or is reduced to
the empty string by `strings.TrimSpace` (it consists only of white space),
`Create` returns one of its two validation errors and the database it was
given, unchanged; the outcome is the same whatever the digest function, no key
or ciphertext enters it. -/
theorem create_rejects_invalid (TrimSpace : List Byte → List Byte) (db : DB) (now : Int)
    (name pin : List Byte) (words : List (List Byte)) (hTrim : TrimSpace [] = [])
    (hbad : (words.length ≠ 12 ∧ words.length ≠ 18 ∧ words.length ≠ 24) ∨
      ∃ w ∈ words, w = [] ∨ TrimSpace w = []) :
    ∃ msg, (msg = "phrase length must be 12, 18, or 24" ∨ msg = "words must be non-empty") ∧
      ∀ sha256 : Sha256,
        Create sha256 TrimSpace db now name pin words = some (Except.error msg, db) := by
  by_cases h1 : words.length ≠ 12 ∧ words.length ≠ 18 ∧ words.length ≠ 24
  · refine ⟨_, Or.inl rfl, fun sha256 => ?_⟩
    simp only [Create]
    rw [if_pos h1]
  · have h2 : (words.any fun w => decide (TrimSpace w = [])) = true := by
      rcases hbad with hb | ⟨w, hw, hw'⟩
      · exact absurd hb h1
      · rw [List.any_eq_true]
        refine ⟨w, hw, ?_⟩
        rcases hw' with rfl | hw'
        · simpa using hTrim
        · simpa using hw'
    refine ⟨_, Or.inr rfl, fun sha256 => ?_⟩
    simp only [Create]
    rw [if_neg h1, if_pos h2]

/-- Witness of C7: thirteen words, and twelve words of which one is two
spaces. -/
theorem create_rejects_invalid_witness :
    (∃ msg, (msg = "phrase length must be 12, 18, or 24" ∨ msg = "words must be non-empty") ∧
      ∀ sha256 : Sha256,
        Create sha256 trimSpaceASCII exampleDB 5 [98] scenarioPin ([97] :: examplePhrase)
          = some (Except.error msg, exampleDB)) ∧
    (∃ msg, (msg = "phrase length must be 12, 18, or 24" ∨ msg = "words must be non-empty") ∧
      ∀ sha256 : Sha256,
        Create sha256 trimSpaceASCII exampleDB 5 [98] scenarioPin
            ([32, 32] :: examplePhrase.tail)
          = some (Except.error msg, exampleDB)) :=
  ⟨create_rejects_invalid trimSpaceASCII exampleDB 5 [98] scenarioPin ([97] :: examplePhrase)
      (by decide) (Or.inl (by decide)),
   create_rejects_invalid trimSpaceASCII exampleDB 5 [98] scenarioPin
      ([32, 32] :: examplePhrase.tail) (by decide)
      (Or.inr ⟨[32, 32], List.mem_cons_self _ _, Or.inr (by decide)⟩)⟩

end wallet
